import Mathlib

/-!
Verification development for the diffing core of `flocker.control._diffing`.

The module computes structural differences between immutable nested values
(pyrsistent `PMap` mappings, `PSet` sets, `PClass` records and scalars),
represents them as an ordered sequence of change operations, composes such
diffs, and applies a diff back to a value through a transactional proxy that
batches consecutive operations addressing the same container so that record
invariants are validated once per batch.

The embedding below models:
  - trees (`Tree`/`Fields`): records keyed by a record-type id, mappings with
    `Nat` keys, sets of `Nat` scalars, and `Nat` scalars; mappings, record
    field dictionaries and sets are kept in strictly sorted key order, the
    canonical representative of pyrsistent's extensional structural equality;
  - the three change-operation classes `_Remove`, `_Set`, `_Add`
    (`ChangeOp.remove`, `ChangeOp.set`, `ChangeOp.add`) and `Diff`;
  - the `_TransformProxy` applier (`TransformProxy`) with its
    `transform`/`commit` batching discipline, including the resolution of a
    batch path by repeated child lookup (`resolve`, pyrsistent's `_get`
    folded with a `None` default), evolver operations (`applyEvOp`),
    validation at `persistent()` time (`validateTree`) and the splice of a
    committed target back into the accumulated object (`treeTransform`,
    pyrsistent's `transform` with a non-callable command);
  - the differencer `_create_diffs_for` / `_create_diffs_for_mappings` /
    `_create_diffs_for_sets` and the entry points `create_diff`,
    `compose_diffs`.

Failures (python exceptions) are modelled by `Except DiffError`.
-/

set_option maxHeartbeats 1000000

namespace Flocker

mutual
/-- A pyrsistent-style immutable tree value: scalar, set of scalars,
mapping, or record (a `PClass` instance tagged with its record-type id). -/
inductive Tree where
  | scalar (n : Nat) : Tree
  | pset (elems : List Nat) : Tree
  | pmap (fs : Fields) : Tree
  | pclass (rid : Nat) (fs : Fields) : Tree
deriving DecidableEq
/-- Key-value entries of a mapping or of a record's field dictionary. -/
inductive Fields where
  | nil : Fields
  | cons (k : Nat) (v : Tree) (rest : Fields) : Fields
deriving DecidableEq
end

/-- Key lookup in a field dictionary. -/
def Fields.lookup : Fields → Nat → Option Tree
  | .nil, _ => none
  | .cons k v r, key => if key = k then some v else r.lookup key

/-- Key lookup with a default scalar, used only where presence is known. -/
def Fields.lookupD (fs : Fields) (k : Nat) : Tree :=
  (fs.lookup k).getD (Tree.scalar 0)

/-- Key membership in a field dictionary. -/
def Fields.contains (fs : Fields) (k : Nat) : Bool :=
  (fs.lookup k).isSome

/-- The keys of a field dictionary, in order. -/
def Fields.keys : Fields → List Nat
  | .nil => []
  | .cons k _ r => k :: r.keys

/-- Evolver `set`: insert or replace a key, keeping keys sorted. -/
def Fields.set : Fields → Nat → Tree → Fields
  | .nil, key, val => .cons key val .nil
  | .cons k v r, key, val =>
    if key = k then .cons key val r
    else if key < k then .cons key val (.cons k v r)
    else .cons k v (r.set key val)

/-- Evolver `remove`: delete a key; `none` models the `KeyError` raised on a
missing key. -/
def Fields.removeKey : Fields → Nat → Option Fields
  | .nil, _ => none
  | .cons k v r, key =>
    if key = k then some r else (r.removeKey key).map (Fields.cons k v)

/-- Set-evolver `add`: insert an element keeping the set sorted; adding an
element already present leaves the set unchanged. -/
def insertSorted (x : Nat) : List Nat → List Nat
  | [] => [x]
  | y :: r => if x = y then y :: r else if x < y then x :: y :: r else y :: insertSorted x r

/-- Modelled from the spec: record invariants (validation performed by the
persistent-collection library when a record builder is finalized).  The
record classes themselves live outside this module; the spec's example
validator couples the presence of two fields of one record ("field X
non-empty implies field Y set").  Record-type id 1 carries such an
interdependent-field invariant (field 0 is present exactly when field 1 is);
all other record types are unconstrained.  The invariant depends only on
which field keys are present. -/
def keysInvariant (rid : Nat) (ks : List Nat) : Bool :=
  if rid = 1 then ks.contains 0 == ks.contains 1 else true

/-- Invariant of a record value, fired when an evolver is converted back to
an immutable value. -/
def recordInvariant (rid : Nat) (fs : Fields) : Bool :=
  keysInvariant rid fs.keys

/-- Error taxonomy for `apply`: `pathResolutionError` when a batch path does
not resolve against the object being mutated; `malformedDiffError` is the
structural-contract error named by the documentation; record validation
failures surface as `invariantViolationError`; `keyError`/`typeError` model
the underlying container exceptions; `assertionError` models the failed
`assert` in `Diff.apply` for an empty-path op that is not a `_Set`. -/
inductive DiffError where
  | pathResolutionError : DiffError
  | malformedDiffError : DiffError
  | invariantViolationError : DiffError
  | keyError : DiffError
  | typeError : DiffError
  | assertionError : DiffError
deriving DecidableEq

/-- One child-lookup step, pyrsistent's `_get` with a `None` default:
mappings and records expose their entries, scalars and sets have none. -/
def getSeg : Tree → Nat → Option Tree
  | .pmap fs, k => fs.lookup k
  | .pclass _ fs, k => fs.lookup k
  | _, _ => none

/-- Resolution of a path by repeated child lookup, as in
`reduce(lambda o, segment: _get(o, segment, None), path, obj)`. -/
def resolve : Tree → List Nat → Option Tree
  | t, [] => some t
  | t, k :: rest =>
    match getSeg t k with
    | some c => resolve c rest
    | none => none

/-- An operation recorded against the open batch's evolver: the lambdas
`o.set(path[-1], value)`, `o.remove(item)` and `x.add(item)` of the three
change classes. -/
inductive EvOp where
  | setK (k : Nat) (v : Tree) : EvOp
  | removeK (k : Nat) : EvOp
  | addE (e : Nat) : EvOp
deriving DecidableEq

/-- Application of one recorded operation to the evolver of the open target. -/
def applyEvOp (t : Tree) (op : EvOp) : Except DiffError Tree :=
  match op, t with
  | .setK k v, .pmap fs => .ok (.pmap (fs.set k v))
  | .setK k v, .pclass rid fs => .ok (.pclass rid (fs.set k v))
  | .removeK k, .pmap fs =>
    match fs.removeKey k with
    | some fs1 => .ok (.pmap fs1)
    | none => .error .keyError
  | .removeK k, .pclass rid fs =>
    match fs.removeKey k with
    | some fs1 => .ok (.pclass rid fs1)
    | none => .error .keyError
  | .removeK k, .pset l =>
    if l.contains k then .ok (.pset (l.erase k)) else .error .keyError
  | .addE e, .pset l => .ok (.pset (insertSorted e l))
  | _, _ => .error .typeError

/-- The loop `for operation in self._operations: operation(evolver)`. -/
def applyEvOps : List EvOp → Tree → Except DiffError Tree
  | [], t => .ok t
  | op :: ops, t =>
    match applyEvOp t op with
    | .ok t1 => applyEvOps ops t1
    | .error e => .error e

/-- The `evolver.persistent()` step: converting the mutated builder back to
an immutable value fires the record invariant. -/
def validateTree : Tree → Except DiffError Tree
  | .pclass rid fs =>
    if recordInvariant rid fs then .ok (.pclass rid fs) else .error .invariantViolationError
  | t => .ok t

/-- Splicing a committed target back at its path,
`self._current_object.transform(self._current_path, target)`: rebuild the
spine above the insertion point, re-validating each rebuilt record. -/
def treeTransform : Tree → List Nat → Tree → Except DiffError Tree
  | _, [], x => .ok x
  | t, k :: rest, x =>
    match getSeg t k with
    | none => .error .pathResolutionError
    | some c =>
      match treeTransform c rest x with
      | .error e => .error e
      | .ok c1 =>
        match t with
        | .pmap fs => .ok (.pmap (fs.set k c1))
        | .pclass rid fs =>
          let fs1 := fs.set k c1
          if recordInvariant rid fs1 then .ok (.pclass rid fs1)
          else .error .invariantViolationError
        | _ => .error .pathResolutionError

/-- The `_TransformProxy` state: the accumulated object, the open batch's
path and pending operations, and (as instrumentation) the number of
finalized batches, counting each real `commit` flush. -/
structure TransformProxy where
  current_object : Tree
  current_path : Option (List Nat)
  operations : List EvOp
  nCommits : Nat
deriving DecidableEq

/-- A freshly constructed `_TransformProxy(original=t)`. -/
def TransformProxy.init (t : Tree) : TransformProxy :=
  ⟨t, none, [], 0⟩

/-- `_TransformProxy.commit`: if operations are pending, resolve the open
path against the current object, run all pending operations on the target's
evolver, finalize it (validating record invariants once), and splice the
result back at the open path. -/
def TransformProxy.commit (pr : TransformProxy) : Except DiffError TransformProxy :=
  if pr.operations.isEmpty then .ok pr
  else
    match pr.current_path with
    | none => .error .pathResolutionError
    | some p =>
      match resolve pr.current_object p with
      | none => .error .pathResolutionError
      | some target =>
        match applyEvOps pr.operations target with
        | .error e => .error e
        | .ok target1 =>
          match validateTree target1 with
          | .error e => .error e
          | .ok target2 =>
            match treeTransform pr.current_object p target2 with
            | .error e => .error e
            | .ok newObj => .ok ⟨newObj, some p, [], pr.nCommits + 1⟩

/-- `_TransformProxy.transform`: commit the outstanding batch when the
incoming path differs from the open one, then record the operation. -/
def TransformProxy.transform (pr : TransformProxy) (path : List Nat) (operation : EvOp) :
    Except DiffError TransformProxy :=
  let flush : Except DiffError TransformProxy :=
    match pr.current_path with
    | some q => if path ≠ q then pr.commit else .ok pr
    | none => .ok pr
  match flush with
  | .error e => .error e
  | .ok pr1 => .ok ⟨pr1.current_object, some path, pr1.operations ++ [operation], pr1.nCommits⟩

/-- The three change-operation classes `_Remove`, `_Set`, `_Add`, each
carrying a path into the tree and a payload. -/
inductive ChangeOp where
  | remove (path : List Nat) (item : Nat) : ChangeOp
  | set (path : List Nat) (value : Tree) : ChangeOp
  | add (path : List Nat) (item : Nat) : ChangeOp
deriving DecidableEq

/-- The path field of a change operation. -/
def ChangeOp.path : ChangeOp → List Nat
  | .remove p _ => p
  | .set p _ => p
  | .add p _ => p

/-- The path each variant's `apply` passes to `proxy.transform`: the op's
`path` for `_Remove`/`_Add`, `path[:-1]` for `_Set`. -/
def ChangeOp.containerPath : ChangeOp → List Nat
  | .remove p _ => p
  | .set p _ => p.dropLast
  | .add p _ => p

/-- The operation each variant's `apply` records against the evolver. -/
def ChangeOp.evOp : ChangeOp → EvOp
  | .remove _ i => .removeK i
  | .set p v => .setK (p.getLastD 0) v
  | .add _ i => .addE i

/-- Each change class's `apply(obj)`, with `obj` the transform proxy:
`obj.transform(container-path, operation)`. -/
def ChangeOp.apply (c : ChangeOp) (pr : TransformProxy) : Except DiffError TransformProxy :=
  pr.transform c.containerPath c.evOp

/-- A `Diff`: an ordered sequence of change operations. -/
structure Diff where
  changes : List ChangeOp
deriving DecidableEq

/-- The loop body of `Diff.apply`: ops with a non-empty path go through the
proxy; an empty-path `_Set` replaces the proxy with a fresh one holding the
replacement value; any other empty-path op fails the `assert`. -/
def Diff.applyChanges : List ChangeOp → TransformProxy → Except DiffError TransformProxy
  | [], pr => .ok pr
  | c :: cs, pr =>
    if 0 < c.path.length then
      match c.apply pr with
      | .ok pr1 => Diff.applyChanges cs pr1
      | .error e => .error e
    else
      match c with
      | .set _ v => Diff.applyChanges cs (TransformProxy.init v)
      | _ => .error .assertionError

/-- `Diff.apply`: run every change through the proxy and commit the final
outstanding batch, returning the transformed object. -/
def Diff.apply (d : Diff) (obj : Tree) : Except DiffError Tree :=
  match Diff.applyChanges d.changes (TransformProxy.init obj) with
  | .error e => .error e
  | .ok pr =>
    match pr.commit with
    | .error e => .error e
    | .ok pr1 => .ok pr1.current_object

/-- Type comparability, `type(a) != type(b)`: two records are of the same
type when they have the same record-type id. -/
def sameType : Tree → Tree → Bool
  | .scalar _, .scalar _ => true
  | .pset _, .pset _ => true
  | .pmap _, .pmap _ => true
  | .pclass r1 _, .pclass r2 _ => r1 == r2
  | _, _ => false

/-- `_create_diffs_for_sets`: a `_Remove` for each element of `a` not in
`b`, then an `_Add` for each element of `b` not in `a`. -/
def _create_diffs_for_sets (current_path : List Nat) (set_a set_b : List Nat) :
    List ChangeOp :=
  ((set_a.filter (fun x => !(set_b.contains x))).map
      (fun x => ChangeOp.remove current_path x))
    ++ ((set_b.filter (fun x => !(set_a.contains x))).map
      (fun x => ChangeOp.add current_path x))

/-- The non-recursive tail of `_create_diffs_for_mappings`: a `_Set` at
`path + key` for each key only in `b`, then a `_Remove` at `path` for each
key only in `a`. -/
def _map_extra (current_path : List Nat) (mapping_a mapping_b : Fields) : List ChangeOp :=
  ((mapping_b.keys.filter (fun k => !(mapping_a.contains k))).map
      (fun k => ChangeOp.set (current_path ++ [k]) (mapping_b.lookupD k)))
    ++ ((mapping_a.keys.filter (fun k => !(mapping_b.contains k))).map
      (fun k => ChangeOp.remove current_path k))

mutual
/-- `_create_diffs_for`: equal values need no ops; incomparable types are
replaced wholesale by a `_Set` at the current path; records of one type are
diffed through their field dictionaries; mappings and sets recurse through
their dedicated helpers; unequal scalars fall back to a `_Set`. -/
def _create_diffs_for (current_path : List Nat) (subobj_a subobj_b : Tree) :
    List ChangeOp :=
  if subobj_a = subobj_b then []
  else if !(sameType subobj_a subobj_b) then [ChangeOp.set current_path subobj_b]
  else match subobj_a, subobj_b with
    | .pclass _ fa, .pclass _ fb =>
      _changed_diffs current_path fa fb ++ _map_extra current_path fa fb
    | .pmap fa, .pmap fb =>
      _changed_diffs current_path fa fb ++ _map_extra current_path fa fb
    | .pset la, .pset lb => _create_diffs_for_sets current_path la lb
    | _, _ => [ChangeOp.set current_path subobj_b]
/-- The recursive head of `_create_diffs_for_mappings`: for each key present
in both mappings whose values differ, recurse at `path + key` and
concatenate the results, iterating keys of `a` in order. -/
def _changed_diffs (current_path : List Nat) (mapping_a mapping_b : Fields) :
    List ChangeOp :=
  match mapping_a with
  | .nil => []
  | .cons k v r =>
    (if mapping_b.contains k then
      (if v = mapping_b.lookupD k then []
       else _create_diffs_for (current_path ++ [k]) v (mapping_b.lookupD k))
     else []) ++ _changed_diffs current_path r mapping_b
end

/-- `_create_diffs_for_mappings`: recursive diffs for keys present in both
with differing values, then a `_Set` per key only in `b`, then a `_Remove`
per key only in `a`. -/
def _create_diffs_for_mappings (current_path : List Nat) (mapping_a mapping_b : Fields) :
    List ChangeOp :=
  _changed_diffs current_path mapping_a mapping_b
    ++ _map_extra current_path mapping_a mapping_b

/-- `create_diff`: the diff from `object_a` to `object_b`, computed from the
root path. -/
def create_diff (object_a object_b : Tree) : Diff :=
  ⟨_create_diffs_for [] object_a object_b⟩

/-- `compose_diffs`: concatenation of the constituent diffs' change
sequences in input order. -/
def compose_diffs (iterable_of_diffs : List Diff) : Diff :=
  ⟨(iterable_of_diffs.map Diff.changes).flatten⟩

/-! ### Basic lemmas about the machinery -/

/-- Processing an appended change list processes the two parts in sequence. -/
theorem Diff.applyChanges_append (xs ys : List ChangeOp) (pr : TransformProxy) :
    Diff.applyChanges (xs ++ ys) pr =
      match Diff.applyChanges xs pr with
      | .ok pr1 => Diff.applyChanges ys pr1
      | .error e => .error e := by
  induction xs generalizing pr with
  | nil => simp [Diff.applyChanges]
  | cons c cs ih =>
    simp only [List.cons_append, Diff.applyChanges]
    split
    · cases h : c.apply pr with
      | ok pr1 => simp [ih]
      | error e => simp
    · split
      · exact ih _
      · rfl

/-- Running the evolver operations of an appended list runs both parts in
sequence. -/
theorem applyEvOps_append (xs ys : List EvOp) (t : Tree) :
    applyEvOps (xs ++ ys) t =
      match applyEvOps xs t with
      | .ok t1 => applyEvOps ys t1
      | .error e => .error e := by
  induction xs generalizing t with
  | nil => simp [applyEvOps]
  | cons op ops ih =>
    simp only [List.cons_append, applyEvOps]
    cases applyEvOp t op <;> simp [ih]

/-- Validation never changes the value it accepts. -/
theorem validateTree_id {t t1 : Tree} (h : validateTree t = .ok t1) : t1 = t := by
  cases t <;> simp [validateTree] at h <;> try exact h.symm
  · rename_i rid fs
    split at h
    · cases h; rfl
    · cases h

/-! ### The never-raised `MalformedDiffError` -/

theorem applyEvOp_nm (t : Tree) (op : EvOp) :
    applyEvOp t op ≠ .error .malformedDiffError := by
  cases op <;> cases t <;> simp [applyEvOp] <;> (try split) <;> simp

theorem applyEvOps_nm (ops : List EvOp) (t : Tree) :
    applyEvOps ops t ≠ .error .malformedDiffError := by
  induction ops generalizing t with
  | nil => simp [applyEvOps]
  | cons op rest ih =>
    simp only [applyEvOps]
    cases h : applyEvOp t op with
    | ok t1 => exact ih t1
    | error e =>
      intro hc
      cases hc
      exact applyEvOp_nm t op h

theorem validateTree_nm (t : Tree) :
    validateTree t ≠ .error .malformedDiffError := by
  cases t <;> simp [validateTree] <;> split <;> simp

theorem treeTransform_nm (t : Tree) (p : List Nat) (x : Tree) :
    treeTransform t p x ≠ .error .malformedDiffError := by
  induction p generalizing t with
  | nil => simp [treeTransform]
  | cons k rest ih =>
    simp only [treeTransform]
    cases hg : getSeg t k with
    | none => simp
    | some c =>
      simp only []
      cases hr : treeTransform c rest x with
      | error e =>
        intro hc
        cases hc
        exact ih c hr
      | ok c1 => cases t <;> simp [validateTree] <;> split <;> simp

theorem commit_nm (pr : TransformProxy) :
    pr.commit ≠ .error .malformedDiffError := by
  unfold TransformProxy.commit
  split
  · simp
  · cases pr.current_path with
    | none => simp
    | some p =>
      simp only []
      cases resolve pr.current_object p with
      | none => simp
      | some target =>
        simp only []
        cases hops : applyEvOps pr.operations target with
        | error e =>
          intro hc; cases hc; exact applyEvOps_nm _ _ hops
        | ok t1 =>
          simp only []
          cases hv : validateTree t1 with
          | error e => intro hc; cases hc; exact validateTree_nm _ hv
          | ok t2 =>
            simp only []
            cases ht : treeTransform pr.current_object p t2 with
            | error e => intro hc; cases hc; exact treeTransform_nm _ _ _ ht
            | ok t3 => simp

theorem transform_nm (pr : TransformProxy) (path : List Nat) (op : EvOp) :
    pr.transform path op ≠ .error .malformedDiffError := by
  unfold TransformProxy.transform
  cases pr.current_path with
  | none => simp
  | some q =>
    simp only []
    split
    · rename_i e heq
      split at heq
      · intro h; cases h; exact commit_nm _ heq
      · cases heq
    · simp

theorem applyChanges_nm (cs : List ChangeOp) (pr : TransformProxy) :
    Diff.applyChanges cs pr ≠ .error .malformedDiffError := by
  induction cs generalizing pr with
  | nil => simp [Diff.applyChanges]
  | cons c rest ih =>
    simp only [Diff.applyChanges]
    split
    · cases h : c.apply pr with
      | ok pr1 => exact ih pr1
      | error e =>
        intro hc; cases hc
        exact transform_nm _ _ _ h
    · split
      · exact ih _
      · simp

theorem apply_nm (d : Diff) (t : Tree) :
    Diff.apply d t ≠ .error .malformedDiffError := by
  unfold Diff.apply
  cases h : Diff.applyChanges d.changes (TransformProxy.init t) with
  | error e =>
    intro hc; cases hc
    exact applyChanges_nm _ _ h
  | ok pr =>
    simp only []
    cases hc : pr.commit with
    | error e => intro hx; cases hx; exact commit_nm _ hc
    | ok pr1 => simp

/-- Convenient composite form of `Diff.apply`. -/
theorem Diff.apply_eq_bind (d : Diff) (t : Tree) :
    Diff.apply d t =
      ((Diff.applyChanges d.changes (TransformProxy.init t)).bind
        TransformProxy.commit).map TransformProxy.current_object := by
  unfold Diff.apply
  cases Diff.applyChanges d.changes (TransformProxy.init t) with
  | error e => rfl
  | ok pr =>
    simp only [Except.bind]
    cases pr.commit <;> rfl

/-- From a state with a pending batch whose path does not resolve against the
accumulated object, processing any further ops with non-empty paths and then
committing fails with `pathResolutionError` (the failing resolution happens at
the first flush, which still sees the unresolvable path). -/
theorem applyChanges_unresolved :
    ∀ (cs : List ChangeOp) (t : Tree) (p : List Nat) (ops : List EvOp) (n : Nat),
      ops ≠ [] → resolve t p = none → (∀ c ∈ cs, c.path ≠ []) →
      (Diff.applyChanges cs ⟨t, some p, ops, n⟩).bind TransformProxy.commit
        = .error .pathResolutionError := by
  intro cs
  induction cs with
  | nil =>
    intro t p ops n hops hres _
    simp only [Diff.applyChanges, Except.bind]
    unfold TransformProxy.commit
    simp [List.isEmpty_iff, hops, hres]
  | cons c rest ih =>
    intro t p ops n hops hres hpaths
    have hcpath : c.path ≠ [] := hpaths c (List.mem_cons_self c rest)
    have hlen : 0 < c.path.length := List.length_pos.mpr hcpath
    simp only [Diff.applyChanges, if_pos hlen]
    by_cases hcp : c.containerPath = p
    · have happ : c.apply ⟨t, some p, ops, n⟩
          = .ok ⟨t, some c.containerPath, ops ++ [c.evOp], n⟩ := by
        unfold ChangeOp.apply TransformProxy.transform
        simp [hcp]
      rw [happ]
      have := ih t c.containerPath (ops ++ [c.evOp]) n (by simp) (hcp ▸ hres)
        (fun c' hc' => hpaths c' (List.mem_cons_of_mem c hc'))
      exact this
    · have hcommit : TransformProxy.commit ⟨t, some p, ops, n⟩
          = .error .pathResolutionError := by
        unfold TransformProxy.commit
        simp [List.isEmpty_iff, hops, hres]
      have happ : c.apply ⟨t, some p, ops, n⟩ = .error .pathResolutionError := by
        unfold ChangeOp.apply TransformProxy.transform
        simp only [ne_eq, hcp, not_false_iff, if_true, hcommit]
      rw [happ]
      rfl

/-! ### Claim theorems -/

/-- C8: for every tree `a`, `create_diff(a, a)` is a Diff with an empty
change sequence, and applying an empty Diff to any tree returns it
unchanged. -/
theorem claim_C8 :
    (∀ a : Tree, create_diff a a = Diff.mk []) ∧
    (∀ a : Tree, Diff.apply (Diff.mk []) a = .ok a) := by
  constructor
  · intro a
    unfold create_diff _create_diffs_for
    simp
  · intro a
    rfl

/-- C10: `compose_diffs` of an empty list of diffs is the empty Diff, and
applying it to any tree is the identity. -/
theorem claim_C10 :
    compose_diffs [] = Diff.mk [] ∧
    (∀ t : Tree, Diff.apply (compose_diffs []) t = .ok t) :=
  ⟨rfl, fun _ => rfl⟩

/-- C1: the claimed unconditional round-trip `apply(create_diff(a, b), a) = b`
fails on the code.  Diffing the root mapping `{0: 1}` against the empty
mapping emits `_Remove(path=[], item=0)`; `Diff.apply` asserts that every
empty-path op is a `_Set`, so applying the computed diff raises
`AssertionError` instead of producing the target tree.  The same happens for
a root-level set and for a removed field of a root record. -/
theorem claim_C1_code_bug :
    create_diff (Tree.pmap (Fields.cons 0 (Tree.scalar 1) Fields.nil)) (Tree.pmap Fields.nil)
      = Diff.mk [ChangeOp.remove [] 0]
    ∧ Diff.apply
        (create_diff (Tree.pmap (Fields.cons 0 (Tree.scalar 1) Fields.nil))
          (Tree.pmap Fields.nil))
        (Tree.pmap (Fields.cons 0 (Tree.scalar 1) Fields.nil))
      = .error .assertionError
    ∧ Diff.apply
        (create_diff (Tree.pset [1]) (Tree.pset [2])) (Tree.pset [1])
      = .error .assertionError :=
  ⟨by decide, rfl, rfl⟩

/-- C7 counterexample: a Diff combining a whole-tree-replacement `_Set`
(empty path) with another op does not fail at all — it applies successfully,
so in particular it does not fail with `MalformedDiffError`. -/
theorem claim_C7_counterexample :
    Diff.apply (Diff.mk [ChangeOp.set [0] (Tree.scalar 1), ChangeOp.set [] (Tree.scalar 7)])
      (Tree.pmap Fields.nil) = .ok (Tree.scalar 7) := rfl

/-- C7 amended: `apply` never fails with `MalformedDiffError`, for any Diff
(in particular not for one that combines a whole-tree-replacement `_Set`
with other ops; such a Diff instead restarts application from the
replacement value). -/
theorem claim_C7_amended :
    ∀ (d : Diff) (t : Tree) (e : DiffError),
      Diff.apply d t = .error e → e ≠ DiffError.malformedDiffError := by
  intro d t e h hc
  subst hc
  exact apply_nm d t h

/-- Witness for C7: a concrete failing apply whose error is not
`MalformedDiffError`. -/
theorem claim_C7_amended_witness :
    DiffError.pathResolutionError ≠ DiffError.malformedDiffError :=
  claim_C7_amended (Diff.mk [ChangeOp.remove [9] 1]) (Tree.scalar 3)
    DiffError.pathResolutionError rfl

/-- C9: an empty-path `_Set` inside a Diff raises no error: it discards all
pending state accumulated from any successfully processed preceding ops and
restarts from its value, continuing with the remaining ops; an empty-path op
of any other variant fails the `assert` in `Diff.apply`. -/
theorem claim_C9 :
    (∀ (cs1 : List ChangeOp) (v : Tree) (cs2 : List ChangeOp) (t : Tree)
        (pr : TransformProxy),
      Diff.applyChanges cs1 (TransformProxy.init t) = .ok pr →
      Diff.apply (Diff.mk (cs1 ++ ChangeOp.set [] v :: cs2)) t
        = Diff.apply (Diff.mk (ChangeOp.set [] v :: cs2)) t) ∧
    (∀ (i : Nat) (cs : List ChangeOp) (t : Tree),
      Diff.apply (Diff.mk (ChangeOp.remove [] i :: cs)) t = .error .assertionError) ∧
    (∀ (i : Nat) (cs : List ChangeOp) (t : Tree),
      Diff.apply (Diff.mk (ChangeOp.add [] i :: cs)) t = .error .assertionError) := by
  refine ⟨?_, fun i cs t => rfl, fun i cs t => rfl⟩
  intro cs1 v cs2 t pr h
  rw [Diff.apply_eq_bind, Diff.apply_eq_bind]
  have key : Diff.applyChanges (cs1 ++ ChangeOp.set [] v :: cs2) (TransformProxy.init t)
      = Diff.applyChanges (ChangeOp.set [] v :: cs2) (TransformProxy.init t) := by
    rw [Diff.applyChanges_append, h]
    rfl
  rw [key]

/-- Witness for C9's reset clause at a concrete input. -/
theorem claim_C9_witness :
    Diff.apply (Diff.mk [ChangeOp.set [2] (Tree.scalar 1), ChangeOp.set [] (Tree.scalar 7)])
        (Tree.pmap Fields.nil)
      = Diff.apply (Diff.mk [ChangeOp.set [] (Tree.scalar 7)]) (Tree.pmap Fields.nil) :=
  claim_C9.1 [ChangeOp.set [2] (Tree.scalar 1)] (Tree.scalar 7) [] (Tree.pmap Fields.nil)
    ⟨Tree.pmap Fields.nil, some [], [EvOp.setK 2 (Tree.scalar 1)], 0⟩ rfl

/-- Processing a prefix that reaches a state `pr` continues from `pr`. -/
theorem apply_append_ok {cs1 cs2 : List ChangeOp} {t : Tree} {pr : TransformProxy}
    (h1 : Diff.applyChanges cs1 (TransformProxy.init t) = .ok pr) :
    Diff.apply (Diff.mk (cs1 ++ cs2)) t
      = ((Diff.applyChanges cs2 pr).bind TransformProxy.commit).map
          TransformProxy.current_object := by
  rw [Diff.apply_eq_bind]
  show ((Diff.applyChanges (cs1 ++ cs2) (TransformProxy.init t)).bind
    TransformProxy.commit).map TransformProxy.current_object = _
  rw [Diff.applyChanges_append, h1]

/-- C6: whenever an apply run reaches a state whose pending batch of ops has
a container path that does not resolve against the tree being mutated (the
partially rewritten `current_object`, not necessarily the original input),
the whole `apply` call fails with `pathResolutionError`, surfaced to the
caller — the failing resolution happens at that batch's flush, wherever in
the Diff the offending ops sit, for any continuation of non-empty-path ops
(a later whole-tree-replacement `_Set` would discard the batch instead).
In particular a Diff of non-empty-path ops whose first op's container path
does not resolve against the input tree fails this way. -/
theorem claim_C6 :
    (∀ (cs1 cs2 : List ChangeOp) (t : Tree) (pr : TransformProxy) (p : List Nat),
      Diff.applyChanges cs1 (TransformProxy.init t) = .ok pr →
      pr.current_path = some p →
      pr.operations ≠ [] →
      resolve pr.current_object p = none →
      (∀ c ∈ cs2, c.path ≠ []) →
      Diff.apply (Diff.mk (cs1 ++ cs2)) t = .error .pathResolutionError) ∧
    (∀ (c : ChangeOp) (cs : List ChangeOp) (t : Tree),
      (∀ c' ∈ c :: cs, c'.path ≠ []) →
      resolve t c.containerPath = none →
      Diff.apply (Diff.mk (c :: cs)) t = .error .pathResolutionError) := by
  constructor
  · intro cs1 cs2 t pr p h1 hpa hops hres hpaths
    rw [apply_append_ok h1]
    obtain ⟨T, pa, ops, n⟩ := pr
    cases hpa
    rw [applyChanges_unresolved cs2 T p ops n hops hres hpaths]
    rfl
  · intro c cs t hpaths hres
    rw [Diff.apply_eq_bind]
    have hcpath : c.path ≠ [] := hpaths c (List.mem_cons_self c cs)
    have hlen : 0 < c.path.length := List.length_pos.mpr hcpath
    have hstep : Diff.applyChanges (Diff.mk (c :: cs)).changes (TransformProxy.init t)
        = Diff.applyChanges cs ⟨t, some c.containerPath, [c.evOp], 0⟩ := by
      simp only [Diff.applyChanges, if_pos hlen]
      have happ : c.apply (TransformProxy.init t)
          = .ok ⟨t, some c.containerPath, [c.evOp], 0⟩ := by
        unfold ChangeOp.apply TransformProxy.transform TransformProxy.init
        rfl
      rw [happ]
    rw [hstep]
    rw [applyChanges_unresolved cs t c.containerPath [c.evOp] 0 (by simp) hres
      (fun c' hc' => hpaths c' (List.mem_cons_of_mem c hc'))]
    rfl

/-- Witness for C6's mid-apply clause: the first op rewrites the tree, and
the second op's container path fails to resolve against the partially
mutated object at its batch's flush. -/
theorem claim_C6_witness :
    Diff.apply
        (Diff.mk [ChangeOp.set [0] (Tree.pmap Fields.nil), ChangeOp.remove [0, 7] 3])
        (Tree.pmap Fields.nil)
      = .error .pathResolutionError :=
  claim_C6.1 [ChangeOp.set [0] (Tree.pmap Fields.nil), ChangeOp.remove [0, 7] 3] []
    (Tree.pmap Fields.nil)
    ⟨Tree.pmap (Fields.cons 0 (Tree.pmap Fields.nil) Fields.nil), some [0, 7],
      [EvOp.removeK 3], 1⟩
    [0, 7] rfl rfl (by decide) rfl (by decide)

/-! ### Batch counting (C2) -/

/-- Number of maximal contiguous runs of equal container paths. -/
def runsCount : List (List Nat) → Nat
  | [] => 0
  | [_] => 1
  | p :: q :: r => (if p = q then 0 else 1) + runsCount (q :: r)

/-- A successful commit of a non-empty batch clears the operations, keeps the
path, and bumps the finalization counter by one. -/
theorem commit_ok_shape {t : Tree} {p : List Nat} {ops : List EvOp} {n : Nat}
    {pr1 : TransformProxy} (hops : ops ≠ [])
    (h : TransformProxy.commit ⟨t, some p, ops, n⟩ = .ok pr1) :
    ∃ T2, pr1 = ⟨T2, some p, [], n + 1⟩ := by
  unfold TransformProxy.commit at h
  rw [if_neg (by simpa [List.isEmpty_iff] using hops)] at h
  split at h
  · cases h
  · rename_i p' hpath
    obtain rfl : p = p' := by injection hpath
    split at h
    · cases h
    · split at h
      · cases h
      · split at h
        · cases h
        · split at h
          · cases h
          · rename_i newObj ht
            cases h
            exact ⟨newObj, rfl⟩

/-- From a state with an open non-empty batch at path `p`, a successful run
followed by the final commit finalizes exactly one batch per maximal run of
equal container paths (counting the open batch's path first). -/
theorem applyChanges_commit_count :
    ∀ (cs : List ChangeOp) (t : Tree) (p : List Nat) (ops : List EvOp) (n : Nat)
      (pr pr' : TransformProxy),
      ops ≠ [] → (∀ c ∈ cs, c.path ≠ []) →
      Diff.applyChanges cs ⟨t, some p, ops, n⟩ = .ok pr →
      pr.commit = .ok pr' →
      pr'.nCommits = n + runsCount (p :: cs.map ChangeOp.containerPath) := by
  intro cs
  induction cs with
  | nil =>
    intro t p ops n pr pr' hops _ hrun hcommit
    simp only [Diff.applyChanges] at hrun
    cases hrun
    obtain ⟨T2, rfl⟩ := commit_ok_shape hops hcommit
    simp [runsCount]
  | cons c rest ih =>
    intro t p ops n pr pr' hops hpaths hrun hcommit
    have hcpath : c.path ≠ [] := hpaths c (List.mem_cons_self c rest)
    have hlen : 0 < c.path.length := List.length_pos.mpr hcpath
    simp only [Diff.applyChanges, if_pos hlen] at hrun
    by_cases hcp : c.containerPath = p
    · have happ : c.apply ⟨t, some p, ops, n⟩
          = .ok ⟨t, some c.containerPath, ops ++ [c.evOp], n⟩ := by
        unfold ChangeOp.apply TransformProxy.transform
        simp [hcp]
      rw [happ] at hrun
      have := ih t c.containerPath (ops ++ [c.evOp]) n pr pr' (by simp)
        (fun c' hc' => hpaths c' (List.mem_cons_of_mem c hc')) hrun hcommit
      rw [this]
      simp [List.map_cons, runsCount, hcp]
    · cases hcm : TransformProxy.commit ⟨t, some p, ops, n⟩ with
      | error e =>
        have happ : c.apply ⟨t, some p, ops, n⟩ = .error e := by
          unfold ChangeOp.apply TransformProxy.transform
          simp only [ne_eq, hcp, not_false_iff, if_true, hcm]
        rw [happ] at hrun
        cases hrun
      | ok pr1 =>
        obtain ⟨T2, rfl⟩ := commit_ok_shape hops hcm
        have happ : c.apply ⟨t, some p, ops, n⟩
            = .ok ⟨T2, some c.containerPath, [c.evOp], n + 1⟩ := by
          unfold ChangeOp.apply TransformProxy.transform
          simp only [ne_eq, hcp, not_false_iff, if_true, hcm]
          rfl
        rw [happ] at hrun
        have := ih T2 c.containerPath [c.evOp] (n + 1) pr pr' (by simp)
          (fun c' hc' => hpaths c' (List.mem_cons_of_mem c hc')) hrun hcommit
        rw [this]
        simp only [List.map_cons, runsCount, if_neg (Ne.symm hcp)]
        omega

/-- C2: every contiguous run of ops addressing one container is applied
through a single builder and finalized exactly once — a successful apply of a
Diff whose ops all have non-empty paths performs exactly one finalization per
maximal run of equal container paths.  In particular the batch-atomicity
scenario holds: on a record of type 1 (invariant: field 0 is present exactly
when field 1 is), a Diff setting both fields in two consecutive `_Set` ops
applies successfully, while each single-field Diff — whose intermediate state
is what the batched validator never sees — fails the invariant. -/
theorem claim_C2 :
    (∀ (cs : List ChangeOp) (t : Tree) (pr pr' : TransformProxy),
      (∀ c ∈ cs, c.path ≠ []) →
      Diff.applyChanges cs (TransformProxy.init t) = .ok pr →
      pr.commit = .ok pr' →
      pr'.nCommits = runsCount (cs.map ChangeOp.containerPath)) ∧
    Diff.apply
        (Diff.mk [ChangeOp.set [0] (Tree.scalar 5), ChangeOp.set [1] (Tree.scalar 6)])
        (Tree.pclass 1 Fields.nil)
      = .ok (Tree.pclass 1 (Fields.cons 0 (Tree.scalar 5)
          (Fields.cons 1 (Tree.scalar 6) Fields.nil))) ∧
    Diff.apply (Diff.mk [ChangeOp.set [0] (Tree.scalar 5)]) (Tree.pclass 1 Fields.nil)
      = .error .invariantViolationError ∧
    Diff.apply (Diff.mk [ChangeOp.set [1] (Tree.scalar 6)]) (Tree.pclass 1 Fields.nil)
      = .error .invariantViolationError := by
  refine ⟨?_, rfl, rfl, rfl⟩
  intro cs t pr pr' hpaths hrun hcommit
  cases cs with
  | nil =>
    simp only [Diff.applyChanges] at hrun
    cases hrun
    unfold TransformProxy.commit at hcommit
    simp only [TransformProxy.init, List.isEmpty_nil, if_true] at hcommit
    cases hcommit
    rfl
  | cons c rest =>
    have hcpath : c.path ≠ [] := hpaths c (List.mem_cons_self c rest)
    have hlen : 0 < c.path.length := List.length_pos.mpr hcpath
    simp only [Diff.applyChanges, if_pos hlen] at hrun
    have happ : c.apply (TransformProxy.init t)
        = .ok ⟨t, some c.containerPath, [c.evOp], 0⟩ := by
      unfold ChangeOp.apply TransformProxy.transform TransformProxy.init
      rfl
    rw [happ] at hrun
    have := applyChanges_commit_count rest t c.containerPath [c.evOp] 0 pr pr'
      (by simp) (fun c' hc' => hpaths c' (List.mem_cons_of_mem c hc')) hrun hcommit
    rw [this]
    simp [List.map_cons]

/-- Witness for C2's counting clause: the two-field scenario finalizes
exactly one batch. -/
theorem claim_C2_witness :
    (⟨Tree.pclass 1 (Fields.cons 0 (Tree.scalar 5) (Fields.cons 1 (Tree.scalar 6) Fields.nil)),
        some [], [], 1⟩ : TransformProxy).nCommits
      = runsCount ([ChangeOp.set [0] (Tree.scalar 5),
          ChangeOp.set [1] (Tree.scalar 6)].map ChangeOp.containerPath) :=
  claim_C2.1 [ChangeOp.set [0] (Tree.scalar 5), ChangeOp.set [1] (Tree.scalar 6)]
    (Tree.pclass 1 Fields.nil)
    ⟨Tree.pclass 1 Fields.nil, some [], [EvOp.setK 0 (Tree.scalar 5), EvOp.setK 1 (Tree.scalar 6)], 0⟩
    ⟨Tree.pclass 1 (Fields.cons 0 (Tree.scalar 5) (Fields.cons 1 (Tree.scalar 6) Fields.nil)),
        some [], [], 1⟩
    (by decide) rfl rfl

/-! ### Set diff characterization (C5) -/

theorem contains_iff (l : List Nat) (x : Nat) : l.contains x = true ↔ x ∈ l := by
  simp [List.contains, List.elem_iff]

/-- C5: diffing two (duplicate-free) sets emits exactly one `_Remove` per
element of `S1 − S2` and exactly one `_Add` per element of `S2 − S1`, with no
duplicates and no op mentioning a common element, and every `_Remove`
precedes every `_Add`. -/
theorem claim_C5 :
    ∀ (p : List Nat) (la lb : List Nat), la.Nodup → lb.Nodup →
      (_create_diffs_for_sets p la lb).Nodup ∧
      (∀ x, x ∈ la → x ∉ lb →
        (_create_diffs_for_sets p la lb).count (ChangeOp.remove p x) = 1) ∧
      (∀ x, x ∈ lb → x ∉ la →
        (_create_diffs_for_sets p la lb).count (ChangeOp.add p x) = 1) ∧
      (∀ x, x ∈ la → x ∈ lb → ∀ c ∈ _create_diffs_for_sets p la lb,
        c ≠ ChangeOp.remove p x ∧ c ≠ ChangeOp.add p x) ∧
      (∃ rs asl, _create_diffs_for_sets p la lb = rs ++ asl ∧
        (∀ c ∈ rs, ∃ x, x ∈ la ∧ x ∉ lb ∧ c = ChangeOp.remove p x) ∧
        (∀ c ∈ asl, ∃ x, x ∈ lb ∧ x ∉ la ∧ c = ChangeOp.add p x)) := by
  intro p la lb hna hnb
  have hinjr : Function.Injective (fun x => ChangeOp.remove p x) := by
    intro a b hab
    simpa [ChangeOp.remove.injEq] using hab
  have hinja : Function.Injective (fun x => ChangeOp.add p x) := by
    intro a b hab
    simpa [ChangeOp.add.injEq] using hab
  refine ⟨?_, ?_, ?_, ?_, ?_⟩
  · unfold _create_diffs_for_sets
    refine List.Nodup.append ?_ ?_ ?_
    · exact (hna.filter _).map hinjr
    · exact (hnb.filter _).map hinja
    · intro c hc1 hc2
      obtain ⟨x, _, rfl⟩ := List.mem_map.mp hc1
      obtain ⟨y, _, hxy⟩ := List.mem_map.mp hc2
      cases hxy
  · intro x hxa hxb
    unfold _create_diffs_for_sets
    rw [List.count_append]
    have h1 : (List.map (fun x => ChangeOp.remove p x)
        (la.filter (fun x => !(lb.contains x)))).count (ChangeOp.remove p x) = 1 := by
      rw [List.count_map_of_injective _ _ hinjr]
      exact List.count_eq_one_of_mem (hna.filter _)
        (List.mem_filter.mpr ⟨hxa, by simp [contains_iff, hxb]⟩)
    have h2 : (List.map (fun x => ChangeOp.add p x)
        (lb.filter (fun x => !(la.contains x)))).count (ChangeOp.remove p x) = 0 := by
      refine List.count_eq_zero_of_not_mem ?_
      intro hc
      obtain ⟨y, _, hxy⟩ := List.mem_map.mp hc
      cases hxy
    rw [h1, h2]
  · intro x hxb hxa
    unfold _create_diffs_for_sets
    rw [List.count_append]
    have h1 : (List.map (fun x => ChangeOp.remove p x)
        (la.filter (fun x => !(lb.contains x)))).count (ChangeOp.add p x) = 0 := by
      refine List.count_eq_zero_of_not_mem ?_
      intro hc
      obtain ⟨y, _, hxy⟩ := List.mem_map.mp hc
      cases hxy
    have h2 : (List.map (fun x => ChangeOp.add p x)
        (lb.filter (fun x => !(la.contains x)))).count (ChangeOp.add p x) = 1 := by
      rw [List.count_map_of_injective _ _ hinja]
      exact List.count_eq_one_of_mem (hnb.filter _)
        (List.mem_filter.mpr ⟨hxb, by simp [contains_iff, hxa]⟩)
    rw [h1, h2]
  · intro x hxa hxb c hc
    unfold _create_diffs_for_sets at hc
    rcases List.mem_append.mp hc with hc1 | hc2
    · obtain ⟨y, hy, rfl⟩ := List.mem_map.mp hc1
      obtain ⟨_, hyb⟩ := List.mem_filter.mp hy
      constructor
      · intro hxy
        apply absurd hxb
        simp only [ChangeOp.remove.injEq] at hxy
        obtain ⟨-, rfl⟩ := hxy
        simpa [contains_iff] using hyb
      · intro hxy; cases hxy
    · obtain ⟨y, hy, rfl⟩ := List.mem_map.mp hc2
      obtain ⟨_, hya⟩ := List.mem_filter.mp hy
      constructor
      · intro hxy; cases hxy
      · intro hxy
        apply absurd hxa
        simp only [ChangeOp.add.injEq] at hxy
        obtain ⟨-, rfl⟩ := hxy
        simpa [contains_iff] using hya
  · refine ⟨_, _, rfl, ?_, ?_⟩
    · intro c hc
      obtain ⟨y, hy, rfl⟩ := List.mem_map.mp hc
      obtain ⟨hya, hyb⟩ := List.mem_filter.mp hy
      exact ⟨y, hya, by simpa [contains_iff] using hyb, rfl⟩
    · intro c hc
      obtain ⟨y, hy, rfl⟩ := List.mem_map.mp hc
      obtain ⟨hyb, hya⟩ := List.mem_filter.mp hy
      exact ⟨y, hyb, by simpa [contains_iff] using hya, rfl⟩

/-- Witness for C5 at concrete sets `{1, 2, 3}` and `{2, 3, 4}`. -/
theorem claim_C5_witness :
    (_create_diffs_for_sets [7] [1, 2, 3] [2, 3, 4]).count (ChangeOp.remove [7] 1) = 1 ∧
    (_create_diffs_for_sets [7] [1, 2, 3] [2, 3, 4]).count (ChangeOp.add [7] 4) = 1 :=
  ⟨(claim_C5 [7] [1, 2, 3] [2, 3, 4] (by decide) (by decide)).2.1 1 (by decide) (by decide),
   (claim_C5 [7] [1, 2, 3] [2, 3, 4] (by decide) (by decide)).2.2.1 4 (by decide) (by decide)⟩

/-! ### Mapping diff characterization (C4) -/

/-- An op of a mapping diff at `p` is attributed to key `k` when its path
descends below `p ++ [k]`, or when it is a `_Remove` of `k` at `p` itself. -/
def touches (p : List Nat) (k : Nat) (c : ChangeOp) : Bool :=
  (p ++ [k]).isPrefixOf c.path ||
  (match c with
   | .remove q i => q == p && i == k
   | _ => false)

theorem isPrefixOf_iff_eq_append (l1 l2 : List Nat) :
    l1.isPrefixOf l2 = true ↔ ∃ q, l2 = l1 ++ q := by
  induction l1 generalizing l2 with
  | nil => simp [List.isPrefixOf]
  | cons x r ih =>
    cases l2 with
    | nil => simp [List.isPrefixOf]
    | cons y s =>
      simp only [List.isPrefixOf, List.cons_append, Bool.and_eq_true, beq_iff_eq, ih]
      constructor
      · rintro ⟨rfl, q, rfl⟩
        exact ⟨q, rfl⟩
      · rintro ⟨q, hq⟩
        cases hq
        exact ⟨rfl, q, rfl⟩

theorem isPrefixOf_append_self (l q : List Nat) : l.isPrefixOf (l ++ q) = true :=
  (isPrefixOf_iff_eq_append l (l ++ q)).mpr ⟨q, rfl⟩

theorem isPrefixOf_snoc_of_ne (p : List Nat) (k k2 : Nat) (q : List Nat) (h : k ≠ k2) :
    (p ++ [k]).isPrefixOf (p ++ k2 :: q) = false := by
  by_contra hc
  rw [Bool.not_eq_false, isPrefixOf_iff_eq_append] at hc
  obtain ⟨q2, hq2⟩ := hc
  rw [List.append_assoc] at hq2
  have := List.append_cancel_left hq2
  simp only [List.cons_append, List.cons.injEq] at this
  exact h this.1.symm

theorem isPrefixOf_snoc_self_false (p : List Nat) (k : Nat) :
    (p ++ [k]).isPrefixOf p = false := by
  by_contra hc
  rw [Bool.not_eq_false, isPrefixOf_iff_eq_append] at hc
  obtain ⟨q2, hq2⟩ := hc
  have := congrArg List.length hq2
  simp [List.length_append] at this

theorem filter_beq_nodup {l : List Nat} (h : l.Nodup) (k : Nat) :
    l.filter (fun x => x == k) = if k ∈ l then [k] else [] := by
  induction l with
  | nil => simp
  | cons x r ih =>
    rcases List.nodup_cons.mp h with ⟨hx, hr⟩
    by_cases hxk : x = k
    · subst hxk
      simp [List.filter_cons, hx, ih hr]
    · rw [List.filter_cons, if_neg (by simpa using hxk), ih hr]
      by_cases hkr : k ∈ r
      · simp [hkr, List.mem_cons]
      · simp [hkr, List.mem_cons, Ne.symm hxk]

theorem Fields.contains_iff_mem_keys : ∀ (fs : Fields) (k : Nat),
    fs.contains k = true ↔ k ∈ fs.keys
  | .nil, k => by simp [Fields.contains, Fields.lookup, Fields.keys]
  | .cons k2 v r, k => by
    simp only [Fields.contains, Fields.lookup, Fields.keys, List.mem_cons]
    by_cases hk : k = k2
    · simp [hk]
    · simp only [if_neg hk, hk, false_or]
      exact Fields.contains_iff_mem_keys r k

theorem Fields.lookup_none_iff (fs : Fields) (k : Nat) :
    fs.lookup k = none ↔ k ∉ fs.keys := by
  rw [← Fields.contains_iff_mem_keys]
  unfold Fields.contains
  cases fs.lookup k <;> simp

theorem touches_set_key (p : List Nat) (k k2 : Nat) (v : Tree) :
    touches p k (ChangeOp.set (p ++ [k2]) v) = (k2 == k) := by
  unfold touches
  by_cases hk : k = k2
  · subst hk
    simp [isPrefixOf_append_self, ChangeOp.path]
  · have := isPrefixOf_snoc_of_ne p k k2 [] (hk)
    simp only [ChangeOp.path]
    rw [show p ++ [k2] = p ++ k2 :: [] from rfl, this]
    simp [Ne.symm hk]

theorem touches_remove_at (p : List Nat) (k k2 : Nat) :
    touches p k (ChangeOp.remove p k2) = (k2 == k) := by
  unfold touches
  simp [ChangeOp.path, isPrefixOf_snoc_self_false]

theorem Fields.keys_cons (k2 : Nat) (v : Tree) (r : Fields) :
    (Fields.cons k2 v r).keys = k2 :: r.keys := rfl

theorem Fields.contains_cons (k2 : Nat) (v : Tree) (r : Fields) (k : Nat) :
    (Fields.cons k2 v r).contains k = if k = k2 then true else r.contains k := by
  unfold Fields.contains
  rw [show (Fields.cons k2 v r).lookup k = if k = k2 then some v else r.lookup k from rfl]
  split <;> rfl

theorem sets_paths (p : List Nat) (la lb : List Nat) (c : ChangeOp)
    (hc : c ∈ _create_diffs_for_sets p la lb) : ∃ q, c.path = p ++ q := by
  unfold _create_diffs_for_sets at hc
  rcases List.mem_append.mp hc with h | h <;>
    obtain ⟨x, -, rfl⟩ := List.mem_map.mp h <;> exact ⟨[], by simp [ChangeOp.path]⟩

theorem map_extra_paths (p : List Nat) (fa fb : Fields) (c : ChangeOp)
    (hc : c ∈ _map_extra p fa fb) : ∃ q, c.path = p ++ q := by
  unfold _map_extra at hc
  rcases List.mem_append.mp hc with h | h
  · obtain ⟨k, -, rfl⟩ := List.mem_map.mp h
    exact ⟨[k], by simp [ChangeOp.path]⟩
  · obtain ⟨k, -, rfl⟩ := List.mem_map.mp h
    exact ⟨[], by simp [ChangeOp.path]⟩

mutual
/-- Every op emitted by the differencer at `p` has `p` as a path prefix. -/
theorem create_diffs_paths : ∀ (p : List Nat) (a b : Tree) (c : ChangeOp),
    c ∈ _create_diffs_for p a b → ∃ q, c.path = p ++ q
  | p, a, b, c, hc => by
    unfold _create_diffs_for at hc
    split at hc
    · cases hc
    · split at hc
      · rw [List.mem_singleton] at hc
        subst hc
        exact ⟨[], by simp [ChangeOp.path]⟩
      · split at hc
        · rcases List.mem_append.mp hc with h1 | h2
          · obtain ⟨k, q, hpath, -, -⟩ := changed_diffs_paths p _ _ c h1
            exact ⟨k :: q, by rw [hpath]⟩
          · exact map_extra_paths p _ _ c h2
        · rcases List.mem_append.mp hc with h1 | h2
          · obtain ⟨k, q, hpath, -, -⟩ := changed_diffs_paths p _ _ c h1
            exact ⟨k :: q, by rw [hpath]⟩
          · exact map_extra_paths p _ _ c h2
        · exact sets_paths p _ _ c hc
        · rw [List.mem_singleton] at hc
          subst hc
          exact ⟨[], by simp [ChangeOp.path]⟩
/-- Every op emitted by the changed-keys head of a mapping diff descends
into some key present in both mappings. -/
theorem changed_diffs_paths : ∀ (p : List Nat) (fa fb : Fields) (c : ChangeOp),
    c ∈ _changed_diffs p fa fb →
    ∃ k q, c.path = p ++ k :: q ∧ fa.contains k = true ∧ fb.contains k = true
  | p, .nil, fb, c, hc => by
    unfold _changed_diffs at hc
    cases hc
  | p, .cons k2 v r, fb, c, hc => by
    unfold _changed_diffs at hc
    rcases List.mem_append.mp hc with h1 | h2
    · split at h1
      · split at h1
        · cases h1
        · obtain ⟨q, hq⟩ := create_diffs_paths (p ++ [k2]) v (fb.lookupD k2) c h1
          refine ⟨k2, q, ?_, ?_, by assumption⟩
          · rw [hq, List.append_assoc]
            rfl
          · simp [Fields.contains, Fields.lookup]
      · cases h1
    · obtain ⟨k, q, hpath, hka, hkb⟩ := changed_diffs_paths p r fb c h2
      refine ⟨k, q, hpath, ?_, hkb⟩
      rw [Fields.contains_cons]
      split
      · rfl
      · exact hka
end

/-- Ops of the recursive block for key `k` all touch `k`. -/
theorem touches_of_mem_block (p : List Nat) (k : Nat) (va vb : Tree) (c : ChangeOp)
    (hc : c ∈ _create_diffs_for (p ++ [k]) va vb) : touches p k c = true := by
  obtain ⟨q, hq⟩ := create_diffs_paths (p ++ [k]) va vb c hc
  unfold touches
  rw [hq, isPrefixOf_append_self]
  simp

/-- Ops of the recursive block for a different key never touch `k`. -/
theorem not_touches_of_mem_other_block (p : List Nat) (k k2 : Nat) (h : k2 ≠ k)
    (va vb : Tree) (c : ChangeOp) (hc : c ∈ _create_diffs_for (p ++ [k2]) va vb) :
    touches p k c = false := by
  obtain ⟨q, hq⟩ := create_diffs_paths (p ++ [k2]) va vb c hc
  have hq2 : c.path = p ++ k2 :: q := by rw [hq, List.append_assoc]; rfl
  have hpre : (p ++ [k]).isPrefixOf c.path = false := by
    rw [hq2]
    exact isPrefixOf_snoc_of_ne p k k2 q (fun hx => h hx.symm)
  unfold touches
  rw [hpre]
  cases c with
  | remove q2 i =>
    simp only [ChangeOp.path] at hq2
    subst hq2
    have hne : ((p ++ k2 :: q) == p) = false := by
      rw [beq_eq_false_iff_ne]
      intro hEq
      have := congrArg List.length hEq
      simp [List.length_append] at this
    simp [hne]
  | set q2 v2 => simp
  | add q2 i => simp

/-- Filtering the changed-keys block by the ops touching `k` yields exactly
the recursive diff for `k` (when `k` is present in both with differing
values) and nothing otherwise. -/
theorem changed_filter_eq : ∀ (p : List Nat) (fa fb : Fields) (k : Nat),
    fa.keys.Nodup →
    (_changed_diffs p fa fb).filter (touches p k)
      = match fa.lookup k, fb.lookup k with
        | some va, some vb =>
          if va = vb then [] else _create_diffs_for (p ++ [k]) va vb
        | _, _ => []
  | p, .nil, fb, k, _ => by
    unfold _changed_diffs
    simp [Fields.lookup]
  | p, .cons k2 v r, fb, k, hnod => by
    have hnc := List.nodup_cons.mp (by rw [Fields.keys_cons] at hnod; exact hnod)
    have hnr : r.keys.Nodup := hnc.2
    have hk2r : k2 ∉ r.keys := hnc.1
    unfold _changed_diffs
    rw [List.filter_append]
    by_cases hk : k = k2
    · subst hk
      rw [show Fields.lookup (Fields.cons k v r) k = some v by simp [Fields.lookup]]
      have hrk : r.lookup k = none := (Fields.lookup_none_iff r k).mpr hk2r
      rw [changed_filter_eq p r fb k hnr, hrk]
      cases hfb : fb.lookup k with
      | none =>
        have hcont : fb.contains k = false := by simp [Fields.contains, hfb]
        rw [if_neg (by simp [hcont])]
        simp
      | some vb =>
        have hcont : fb.contains k = true := by simp [Fields.contains, hfb]
        have hlkD : fb.lookupD k = vb := by simp [Fields.lookupD, hfb]
        rw [if_pos hcont, hlkD]
        by_cases hveq : v = vb
        · rw [if_pos hveq]
          simp [hveq]
        · rw [if_neg hveq]
          rw [List.filter_eq_self.mpr (fun c hc => touches_of_mem_block p k v vb c hc)]
          simp [hveq]
    · rw [show Fields.lookup (Fields.cons k2 v r) k = r.lookup k by
        simp [Fields.lookup, hk]]
      rw [changed_filter_eq p r fb k hnr]
      have hblock : (if fb.contains k2 = true then
          (if v = fb.lookupD k2 then []
           else _create_diffs_for (p ++ [k2]) v (fb.lookupD k2))
          else []).filter (touches p k) = [] := by
        split
        · split
          · rfl
          · rw [List.filter_eq_nil]
            intro c hc
            rw [not_touches_of_mem_other_block p k k2 (fun hx => hk hx.symm) _ _ c hc]
            simp
        · rfl
      rw [hblock]
      simp

/-- No op of the add/remove tail of a mapping diff touches a key present in
both mappings. -/
theorem map_extra_filter_both (p : List Nat) (fa fb : Fields) (k : Nat)
    (hka : fa.contains k = true) (hkb : fb.contains k = true) :
    (_map_extra p fa fb).filter (touches p k) = [] := by
  have h1 : ((fb.keys.filter (fun k2 => !(fa.contains k2))).map
      (fun k2 => ChangeOp.set (p ++ [k2]) (fb.lookupD k2))).filter (touches p k) = [] := by
    rw [List.filter_eq_nil]
    intro c hc
    obtain ⟨k2, hk2, rfl⟩ := List.mem_map.mp hc
    obtain ⟨-, hk2a⟩ := List.mem_filter.mp hk2
    have hne : k2 ≠ k := by
      intro h
      subst h
      rw [hka] at hk2a
      simp at hk2a
    rw [touches_set_key]
    simp [hne]
  have h2 : ((fa.keys.filter (fun k2 => !(fb.contains k2))).map
      (fun k2 => ChangeOp.remove p k2)).filter (touches p k) = [] := by
    rw [List.filter_eq_nil]
    intro c hc
    obtain ⟨k2, hk2, rfl⟩ := List.mem_map.mp hc
    obtain ⟨-, hk2b⟩ := List.mem_filter.mp hk2
    have hne : k2 ≠ k := by
      intro h
      subst h
      rw [hkb] at hk2b
      simp at hk2b
    rw [touches_remove_at]
    simp [hne]
  unfold _map_extra
  rw [List.filter_append, h1, h2]
  rfl

/-- The ops of the add/remove tail touching an added key form exactly one
`_Set` carrying the new value. -/
theorem map_extra_filter_added (p : List Nat) (fa fb : Fields) (k : Nat)
    (hnb : fb.keys.Nodup) (hka : fa.contains k = false) (hkb : k ∈ fb.keys) :
    (_map_extra p fa fb).filter (touches p k)
      = [ChangeOp.set (p ++ [k]) (fb.lookupD k)] := by
  have h1 : ((fb.keys.filter (fun k2 => !(fa.contains k2))).map
      (fun k2 => ChangeOp.set (p ++ [k2]) (fb.lookupD k2))).filter (touches p k)
      = [ChangeOp.set (p ++ [k]) (fb.lookupD k)] := by
    rw [List.filter_map]
    have hcong : (fb.keys.filter (fun k2 => !(fa.contains k2))).filter
        ((touches p k) ∘ (fun k2 => ChangeOp.set (p ++ [k2]) (fb.lookupD k2)))
        = (fb.keys.filter (fun k2 => !(fa.contains k2))).filter (fun k2 => k2 == k) := by
      apply List.filter_congr
      intro k2 _
      simp only [Function.comp]
      rw [touches_set_key]
    rw [hcong, filter_beq_nodup (hnb.filter _) k,
      if_pos (List.mem_filter.mpr ⟨hkb, by simp [hka]⟩)]
    rfl
  have h2 : ((fa.keys.filter (fun k2 => !(fb.contains k2))).map
      (fun k2 => ChangeOp.remove p k2)).filter (touches p k) = [] := by
    rw [List.filter_eq_nil]
    intro c hc
    obtain ⟨k2, hk2, rfl⟩ := List.mem_map.mp hc
    obtain ⟨hk2a, -⟩ := List.mem_filter.mp hk2
    have hne : k2 ≠ k := by
      intro h
      subst h
      rw [(Fields.contains_iff_mem_keys fa k2).mpr hk2a] at hka
      cases hka
    rw [touches_remove_at]
    simp [hne]
  unfold _map_extra
  rw [List.filter_append, h1, h2]
  rfl

/-- The ops of the add/remove tail touching a removed key form exactly one
`_Remove` of that key at the mapping's own path. -/
theorem map_extra_filter_removed (p : List Nat) (fa fb : Fields) (k : Nat)
    (hna : fa.keys.Nodup) (hka : k ∈ fa.keys) (hkb : fb.contains k = false) :
    (_map_extra p fa fb).filter (touches p k) = [ChangeOp.remove p k] := by
  have h1 : ((fb.keys.filter (fun k2 => !(fa.contains k2))).map
      (fun k2 => ChangeOp.set (p ++ [k2]) (fb.lookupD k2))).filter (touches p k) = [] := by
    rw [List.filter_eq_nil]
    intro c hc
    obtain ⟨k2, hk2, rfl⟩ := List.mem_map.mp hc
    obtain ⟨hk2b, -⟩ := List.mem_filter.mp hk2
    have hne : k2 ≠ k := by
      intro h
      subst h
      rw [(Fields.contains_iff_mem_keys fb k2).mpr hk2b] at hkb
      cases hkb
    rw [touches_set_key]
    simp [hne]
  have h2 : ((fa.keys.filter (fun k2 => !(fb.contains k2))).map
      (fun k2 => ChangeOp.remove p k2)).filter (touches p k)
      = [ChangeOp.remove p k] := by
    rw [List.filter_map]
    have hcong : (fa.keys.filter (fun k2 => !(fb.contains k2))).filter
        ((touches p k) ∘ (fun k2 => ChangeOp.remove p k2))
        = (fa.keys.filter (fun k2 => !(fb.contains k2))).filter (fun k2 => k2 == k) := by
      apply List.filter_congr
      intro k2 _
      simp only [Function.comp]
      rw [touches_remove_at]
    rw [hcong, filter_beq_nodup (hna.filter _) k,
      if_pos (List.mem_filter.mpr ⟨hka, by simp [hkb]⟩)]
    rfl
  unfold _map_extra
  rw [List.filter_append, h1, h2]
  rfl

/-- C4: the ops emitted for a pair of mappings are exactly — nothing for an
unchanged key, the recursive diff at `path + key` for a changed key, one
`_Set` of the new value for an added key, one `_Remove` for a removed key —
and every emitted op is attributed to some key of the two mappings. -/
theorem claim_C4 :
    ∀ (p : List Nat) (fa fb : Fields), fa.keys.Nodup → fb.keys.Nodup →
      (∀ k v, fa.lookup k = some v → fb.lookup k = some v →
        (_create_diffs_for_mappings p fa fb).filter (touches p k) = []) ∧
      (∀ k va vb, fa.lookup k = some va → fb.lookup k = some vb → va ≠ vb →
        (_create_diffs_for_mappings p fa fb).filter (touches p k)
          = _create_diffs_for (p ++ [k]) va vb) ∧
      (∀ k vb, fa.lookup k = none → fb.lookup k = some vb →
        (_create_diffs_for_mappings p fa fb).filter (touches p k)
          = [ChangeOp.set (p ++ [k]) vb]) ∧
      (∀ k va, fa.lookup k = some va → fb.lookup k = none →
        (_create_diffs_for_mappings p fa fb).filter (touches p k)
          = [ChangeOp.remove p k]) ∧
      (∀ c ∈ _create_diffs_for_mappings p fa fb,
        ∃ k, touches p k c = true ∧ (k ∈ fa.keys ∨ k ∈ fb.keys)) := by
  intro p fa fb hna hnb
  refine ⟨?_, ?_, ?_, ?_, ?_⟩
  · intro k v h1 h2
    unfold _create_diffs_for_mappings
    rw [List.filter_append, changed_filter_eq p fa fb k hna, h1, h2,
      map_extra_filter_both p fa fb k (by simp [Fields.contains, h1])
        (by simp [Fields.contains, h2])]
    simp
  · intro k va vb h1 h2 hne
    unfold _create_diffs_for_mappings
    rw [List.filter_append, changed_filter_eq p fa fb k hna, h1, h2,
      map_extra_filter_both p fa fb k (by simp [Fields.contains, h1])
        (by simp [Fields.contains, h2])]
    simp [hne]
  · intro k vb h1 h2
    unfold _create_diffs_for_mappings
    rw [List.filter_append, changed_filter_eq p fa fb k hna, h1,
      map_extra_filter_added p fa fb k hnb (by simp [Fields.contains, h1])
        ((Fields.contains_iff_mem_keys fb k).mp (by simp [Fields.contains, h2]))]
    simp [Fields.lookupD, h2]
  · intro k va h1 h2
    unfold _create_diffs_for_mappings
    rw [List.filter_append, changed_filter_eq p fa fb k hna, h1, h2,
      map_extra_filter_removed p fa fb k hna
        ((Fields.contains_iff_mem_keys fa k).mp (by simp [Fields.contains, h1]))
        (by simp [Fields.contains, h2])]
    simp
  · intro c hc
    unfold _create_diffs_for_mappings at hc
    rcases List.mem_append.mp hc with h1 | h2
    · obtain ⟨k, q, hpath, hka, hkb⟩ := changed_diffs_paths p fa fb c h1
      refine ⟨k, ?_, Or.inl ((Fields.contains_iff_mem_keys fa k).mp hka)⟩
      unfold touches
      rw [hpath, show p ++ k :: q = (p ++ [k]) ++ q by rw [List.append_assoc]; rfl,
        isPrefixOf_append_self]
      simp
    · unfold _map_extra at h2
      rcases List.mem_append.mp h2 with h3 | h3
      · obtain ⟨k2, hk2, rfl⟩ := List.mem_map.mp h3
        obtain ⟨hk2b, -⟩ := List.mem_filter.mp hk2
        refine ⟨k2, ?_, Or.inr hk2b⟩
        rw [touches_set_key]
        simp
      · obtain ⟨k2, hk2, rfl⟩ := List.mem_map.mp h3
        obtain ⟨hk2a, -⟩ := List.mem_filter.mp hk2
        refine ⟨k2, ?_, Or.inl hk2a⟩
        rw [touches_remove_at]
        simp

/-- Witness for C4 at the spec's scenario mappings
`{10: 1, 11: 2}` and `{10: 1, 11: 3, 12: 4}`. -/
theorem claim_C4_witness :
    (_create_diffs_for_mappings []
        (Fields.cons 10 (Tree.scalar 1) (Fields.cons 11 (Tree.scalar 2) Fields.nil))
        (Fields.cons 10 (Tree.scalar 1) (Fields.cons 11 (Tree.scalar 3)
          (Fields.cons 12 (Tree.scalar 4) Fields.nil)))).filter (touches [] 12)
      = [ChangeOp.set [12] (Tree.scalar 4)] :=
  (claim_C4 []
      (Fields.cons 10 (Tree.scalar 1) (Fields.cons 11 (Tree.scalar 2) Fields.nil))
      (Fields.cons 10 (Tree.scalar 1) (Fields.cons 11 (Tree.scalar 3)
        (Fields.cons 12 (Tree.scalar 4) Fields.nil)))
      (by decide) (by decide)).2.2.1 12 (Tree.scalar 4) rfl rfl

/-! ### Composition (C3): tree-level coherence lemmas -/

theorem Fields.lookup_set_self : ∀ (fs : Fields) (k : Nat) (v : Tree),
    (fs.set k v).lookup k = some v
  | .nil, k, v => by simp [Fields.set, Fields.lookup]
  | .cons k2 v2 r, k, v => by
    unfold Fields.set
    by_cases h1 : k = k2
    · simp [h1, Fields.lookup]
    · rw [if_neg h1]
      by_cases h2 : k < k2
      · simp [h2, Fields.lookup]
      · rw [if_neg h2]
        rw [show (Fields.cons k2 v2 (r.set k v)).lookup k
          = if k = k2 then some v2 else (r.set k v).lookup k from rfl, if_neg h1]
        exact Fields.lookup_set_self r k v

theorem Fields.keys_set : ∀ (fs : Fields) (k : Nat) (a b : Tree),
    (fs.set k a).keys = (fs.set k b).keys
  | .nil, _, _, _ => rfl
  | .cons k2 v2 r, k, a, b => by
    unfold Fields.set
    by_cases h1 : k = k2
    · simp [h1, Fields.keys]
    · rw [if_neg h1, if_neg h1]
      by_cases h2 : k < k2
      · simp [h2, Fields.keys]
      · rw [if_neg h2, if_neg h2, Fields.keys_cons, Fields.keys_cons,
          Fields.keys_set r k a b]

theorem Fields.set_cons (k2 : Nat) (v2 : Tree) (r : Fields) (key : Nat) (val : Tree) :
    (Fields.cons k2 v2 r).set key val
      = if key = k2 then Fields.cons key val r
        else if key < k2 then Fields.cons key val (Fields.cons k2 v2 r)
        else Fields.cons k2 v2 (r.set key val) := rfl

theorem Fields.set_set : ∀ (fs : Fields) (k : Nat) (a b : Tree),
    (fs.set k a).set k b = fs.set k b
  | .nil, k, a, b => by simp [Fields.set]
  | .cons k2 v2 r, k, a, b => by
    rw [Fields.set_cons k2 v2 r k a]
    by_cases h1 : k = k2
    · rw [if_pos h1, Fields.set_cons, if_pos rfl, Fields.set_cons, if_pos h1]
    · rw [if_neg h1]
      by_cases h2 : k < k2
      · rw [if_pos h2, Fields.set_cons, if_pos rfl, Fields.set_cons, if_neg h1, if_pos h2]
      · rw [if_neg h2, Fields.set_cons, if_neg h1, if_neg h2, Fields.set_set r k a b,
          Fields.set_cons, if_neg h1, if_neg h2]

theorem getSeg_pmap (fs : Fields) (k : Nat) : getSeg (Tree.pmap fs) k = fs.lookup k := rfl

theorem getSeg_pclass (rid : Nat) (fs : Fields) (k : Nat) :
    getSeg (Tree.pclass rid fs) k = fs.lookup k := rfl

theorem resolve_cons (t : Tree) (k : Nat) (rest : List Nat) :
    resolve t (k :: rest) = match getSeg t k with
      | some c => resolve c rest
      | none => none := rfl

theorem resolve_cons_some {t c : Tree} {k : Nat} (hg : getSeg t k = some c)
    (rest : List Nat) : resolve t (k :: rest) = resolve c rest := by
  rw [resolve_cons, hg]

/-- One spine-rebuild step of `treeTransform`: replace child `k` by `c1` in
the current node, re-validating a rebuilt record. -/
def spliceStep (t : Tree) (k : Nat) (c1 : Tree) : Except DiffError Tree :=
  match t with
  | .pmap fs => .ok (.pmap (fs.set k c1))
  | .pclass rid fs =>
    if recordInvariant rid (fs.set k c1) then .ok (.pclass rid (fs.set k c1))
    else .error .invariantViolationError
  | _ => .error .pathResolutionError

theorem treeTransform_cons (t : Tree) (k : Nat) (rest : List Nat) (x : Tree) :
    treeTransform t (k :: rest) x = match getSeg t k with
      | none => .error .pathResolutionError
      | some c => match treeTransform c rest x with
        | .error e => .error e
        | .ok c1 => spliceStep t k c1 := rfl

theorem treeTransform_cons_some {t c : Tree} {k : Nat} (hg : getSeg t k = some c)
    (rest : List Nat) (x : Tree) :
    treeTransform t (k :: rest) x = match treeTransform c rest x with
      | .error e => .error e
      | .ok c1 => spliceStep t k c1 := by
  rw [treeTransform_cons, hg]

/-- After a successful splice of `x` at `p`, resolving `p` finds `x`. -/
theorem resolve_treeTransform : ∀ (p : List Nat) (t x t1 : Tree),
    treeTransform t p x = .ok t1 → resolve t1 p = some x
  | [], t, x, t1, h => by
    unfold treeTransform at h
    cases h
    rfl
  | k :: rest, t, x, t1, h => by
    rw [treeTransform_cons] at h
    split at h
    · cases h
    · rename_i c hg
      split at h
      · cases h
      · rename_i c1 ht
        unfold spliceStep at h
        split at h
        · rename_i fs
          cases h
          rw [resolve_cons_some (c := c1) (by rw [getSeg_pmap, Fields.lookup_set_self])]
          exact resolve_treeTransform rest c x c1 ht
        · rename_i rid fs
          split at h
          · cases h
            rw [resolve_cons_some (c := c1) (by rw [getSeg_pclass, Fields.lookup_set_self])]
            exact resolve_treeTransform rest c x c1 ht
          · cases h
        · cases h

/-- Splicing twice at the same path keeps only the second splice: the spine
rebuilt by the first splice resolves and validates exactly as the original
one (record invariants depend only on field presence, which a splice never
changes). -/
theorem treeTransform_collapse : ∀ (p : List Nat) (t x t1 : Tree),
    treeTransform t p x = .ok t1 → ∀ y, treeTransform t1 p y = treeTransform t p y
  | [], t, x, t1, h, y => by
    unfold treeTransform at h
    cases h
    rfl
  | k :: rest, t, x, t1, h, y => by
    rw [treeTransform_cons] at h
    split at h
    · cases h
    · rename_i c hg
      split at h
      · cases h
      · rename_i c1 ht
        unfold spliceStep at h
        split at h
        · rename_i fs
          cases h
          rw [treeTransform_cons_some (c := c1) (by rw [getSeg_pmap, Fields.lookup_set_self]),
            treeTransform_cons_some hg, treeTransform_collapse rest c x c1 ht y]
          cases treeTransform c rest y with
          | error e => rfl
          | ok y1 =>
            show Except.ok (Tree.pmap ((fs.set k c1).set k y1))
              = Except.ok (Tree.pmap (fs.set k y1))
            rw [Fields.set_set]
        · rename_i rid fs
          split at h
          · cases h
            rw [treeTransform_cons_some (c := c1)
                (by rw [getSeg_pclass, Fields.lookup_set_self]),
              treeTransform_cons_some hg, treeTransform_collapse rest c x c1 ht y]
            cases treeTransform c rest y with
            | error e => rfl
            | ok y1 =>
              show (if recordInvariant rid (((fs.set k c1)).set k y1) = true
                  then Except.ok (Tree.pclass rid ((fs.set k c1).set k y1))
                  else Except.error DiffError.invariantViolationError)
                = (if recordInvariant rid (fs.set k y1) = true
                  then Except.ok (Tree.pclass rid (fs.set k y1))
                  else Except.error DiffError.invariantViolationError)
              rw [Fields.set_set]
          · cases h
        · cases h

/-- The value produced by a commit, as a pure function of the proxy's
observable state (accumulated object, open path, pending operations). -/
def commitCore (T : Tree) (pa : Option (List Nat)) (ops : List EvOp) :
    Except DiffError Tree :=
  if ops.isEmpty then .ok T
  else match pa with
    | none => .error .pathResolutionError
    | some p =>
      match resolve T p with
      | none => .error .pathResolutionError
      | some target =>
        match applyEvOps ops target with
        | .error e => .error e
        | .ok t1 =>
          match validateTree t1 with
          | .error e => .error e
          | .ok t2 => treeTransform T p t2

theorem commitCore_some (T : Tree) (p : List Nat) (ops : List EvOp) (hops : ops ≠ []) :
    commitCore T (some p) ops = match resolve T p with
      | none => .error .pathResolutionError
      | some target => match applyEvOps ops target with
        | .error e => .error e
        | .ok t1 => match validateTree t1 with
          | .error e => .error e
          | .ok t2 => treeTransform T p t2 := by
  unfold commitCore
  rw [if_neg (by simpa [List.isEmpty_iff] using hops)]

/-- A commit is its core computation, clearing the operations and keeping
the path on success. -/
theorem commit_eq_core (T : Tree) (pa : Option (List Nat)) (ops : List EvOp) (n : Nat) :
    TransformProxy.commit ⟨T, pa, ops, n⟩
      = match commitCore T pa ops with
        | .error e => .error e
        | .ok T2 => .ok ⟨T2, pa, [], if ops.isEmpty then n else n + 1⟩ := by
  unfold TransformProxy.commit commitCore
  simp only []
  by_cases hemp : ops.isEmpty
  · rw [if_pos hemp, if_pos hemp, if_pos hemp]
    obtain rfl := List.isEmpty_iff.mp hemp
    rfl
  · rw [if_neg hemp, if_neg hemp, if_neg hemp]
    cases pa with
    | none => rfl
    | some p =>
      simp only []
      split
      · rfl
      · split
        · rfl
        · split
          · rfl
          · cases treeTransform T p _ <;> rfl

theorem commit_spec (T : Tree) (pa : Option (List Nat)) (ops : List EvOp) (n : Nat) :
    (∃ e, commitCore T pa ops = .error e ∧
      TransformProxy.commit ⟨T, pa, ops, n⟩ = .error e) ∨
    (∃ T2 n2, commitCore T pa ops = .ok T2 ∧
      TransformProxy.commit ⟨T, pa, ops, n⟩ = .ok ⟨T2, pa, [], n2⟩) := by
  cases hcc : commitCore T pa ops with
  | error e =>
    left
    exact ⟨e, rfl, by rw [commit_eq_core, hcc]⟩
  | ok T2 =>
    right
    exact ⟨T2, if ops.isEmpty then n else n + 1, rfl, by rw [commit_eq_core, hcc]⟩

theorem commitCore_ok_destruct {T : Tree} {pa : Option (List Nat)} {ops : List EvOp}
    {T2 : Tree} (hops : ops ≠ []) (h : commitCore T pa ops = .ok T2) :
    ∃ p tgt tgt1, pa = some p ∧ resolve T p = some tgt ∧
      applyEvOps ops tgt = .ok tgt1 ∧ validateTree tgt1 = .ok tgt1 ∧
      treeTransform T p tgt1 = .ok T2 := by
  unfold commitCore at h
  rw [if_neg (by simpa [List.isEmpty_iff] using hops)] at h
  cases pa with
  | none => cases h
  | some p =>
    simp only [] at h
    split at h
    · cases h
    · rename_i tgt hres
      split at h
      · cases h
      · rename_i tgt1 hops1
        split at h
        · cases h
        · rename_i tgt2 hv
          obtain rfl := validateTree_id hv
          exact ⟨p, tgt, tgt2, rfl, hres, hops1, hv, h⟩

/-- Merging a committed batch with a following batch at the same path gives
the same core result as committing them separately. -/
theorem commitCore_merge {T : Tree} {p : List Nat} {ops r : List EvOp}
    {tgt tgt1 T1 : Tree} (hops : ops ≠ [])
    (hres : resolve T p = some tgt) (hfold : applyEvOps ops tgt = .ok tgt1)
    (hval : validateTree tgt1 = .ok tgt1) (htr : treeTransform T p tgt1 = .ok T1)
    (qpa : Option (List Nat)) (hqpa : qpa = some p ∨ (r = [] ∧ qpa = none)) :
    commitCore T (some p) (ops ++ r) = commitCore T1 qpa r := by
  by_cases hr : r = []
  · subst hr
    rw [List.append_nil, commitCore_some T p ops hops]
    simp only [hres, hfold, hval, htr]
    unfold commitCore
    rfl
  · obtain rfl | ⟨hr2, -⟩ := hqpa
    · rw [commitCore_some T p (ops ++ r) (by simp [hops]),
        commitCore_some T1 p r hr]
      rw [hres, resolve_treeTransform p T tgt1 T1 htr]
      simp only [applyEvOps_append, hfold]
      cases happly : applyEvOps r tgt1 with
      | error e => rfl
      | ok x =>
        simp only []
        cases hvx : validateTree x with
        | error e => rfl
        | ok x2 =>
          simp only []
          exact (treeTransform_collapse p T tgt1 T1 htr x2).symm
    · exact absurd hr2 hr

theorem commit_empty {P : TransformProxy} (h : P.operations = []) : P.commit = .ok P := by
  unfold TransformProxy.commit
  rw [if_pos (by simp [h])]

/-- Simulation relation between a proxy still carrying a pending batch
prefix and a proxy that has already committed that prefix: either the two
agree on the observable batch state (the counter aside), or the second's
object is the first's with the pending prefix committed and spliced. -/
def Rel (P Q : TransformProxy) : Prop :=
  (P.current_object = Q.current_object ∧ P.operations = Q.operations ∧
    (P.current_path = Q.current_path ∨ P.operations = [])) ∨
  (∃ p ops r tgt tgt1 T1,
    P.current_path = some p ∧ P.operations = ops ++ r ∧ ops ≠ [] ∧
    resolve P.current_object p = some tgt ∧
    applyEvOps ops tgt = .ok tgt1 ∧
    validateTree tgt1 = .ok tgt1 ∧
    treeTransform P.current_object p tgt1 = .ok T1 ∧
    Q.current_object = T1 ∧ Q.operations = r ∧
    (Q.current_path = some p ∨ (r = [] ∧ Q.current_path = none)))

/-- Related proxies commit to the same error, or to states with the same
object and no pending operations. -/
theorem commit_rel {P Q : TransformProxy} (h : Rel P Q) :
    (∃ e, P.commit = .error e ∧ Q.commit = .error e) ∨
    (∃ P1 Q1, P.commit = .ok P1 ∧ Q.commit = .ok Q1 ∧
      P1.current_object = Q1.current_object ∧
      P1.operations = [] ∧ Q1.operations = []) := by
  obtain ⟨TP, paP, opsP, nP⟩ := P
  obtain ⟨TQ, paQ, opsQ, nQ⟩ := Q
  unfold Rel at h
  simp only [] at h
  rcases h with ⟨hco, hops, hpq⟩ | ⟨p, ops, r, tgt, tgt1, T1, hpa, hops, hopsne,
    hres, hfold, hval, htr, hqco, hqops, hqpa⟩
  · cases hco
    cases hops
    rcases hpq with hpq | hopse
    · cases hpq
      rcases commit_spec TP paP opsP nP with ⟨e, hc, hP⟩ | ⟨T2, n2, hc, hP⟩
      · rcases commit_spec TP paP opsP nQ with ⟨e2, hc2, hQ⟩ | ⟨T2, n2, hc2, hQ⟩
        · left
          refine ⟨e, hP, ?_⟩
          rw [hQ, Except.error.injEq]
          exact Except.error.inj (hc2.symm.trans hc)
        · rw [hc] at hc2
          cases hc2
      · rcases commit_spec TP paP opsP nQ with ⟨e2, hc2, hQ⟩ | ⟨T3, n3, hc2, hQ⟩
        · rw [hc] at hc2
          cases hc2
        · right
          refine ⟨_, _, hP, hQ, ?_, rfl, rfl⟩
          simp only []
          exact Except.ok.inj (hc.symm.trans hc2)
    · cases hopse
      right
      exact ⟨⟨TP, paP, [], nP⟩, ⟨TP, paQ, [], nQ⟩, commit_empty rfl, commit_empty rfl,
        rfl, rfl, rfl⟩
  · cases hpa
    cases hops
    cases hqops
    rw [show T1 = TQ from hqco.symm] at htr
    have hcoreEq : commitCore TP (some p) (ops ++ opsQ) = commitCore TQ paQ opsQ :=
      commitCore_merge hopsne hres hfold hval htr paQ hqpa
    rcases commit_spec TQ paQ opsQ nQ with ⟨e, hc, hQ⟩ | ⟨T2, n2, hc, hQ⟩
    · rcases commit_spec TP (some p) (ops ++ opsQ) nP with ⟨e2, hc2, hP⟩ | ⟨T2, n2, hc2, hP⟩
      · left
        refine ⟨e2, hP, ?_⟩
        rw [hQ, Except.error.injEq]
        exact (Except.error.inj ((hcoreEq.symm.trans hc2).symm.trans hc)).symm
      · rw [hcoreEq, hc] at hc2
        cases hc2
    · rcases commit_spec TP (some p) (ops ++ opsQ) nP with ⟨e2, hc2, hP⟩ | ⟨T3, n3, hc2, hP⟩
      · rw [hcoreEq, hc] at hc2
        cases hc2
      · right
        refine ⟨_, _, hP, hQ, ?_, rfl, rfl⟩
        simp only []
        rw [hcoreEq, hc] at hc2
        exact (Except.ok.inj hc2).symm

/-- The flush step of `transform`: commit when the incoming path differs
from the open one. -/
def flushOf (P : TransformProxy) (cp : List Nat) : Except DiffError TransformProxy :=
  match P.current_path with
  | some q => if cp ≠ q then P.commit else .ok P
  | none => .ok P

theorem transform_eq (P : TransformProxy) (cp : List Nat) (op : EvOp) :
    P.transform cp op = match flushOf P cp with
      | .error e => .error e
      | .ok pr1 =>
        .ok ⟨pr1.current_object, some cp, pr1.operations ++ [op], pr1.nCommits⟩ := rfl

theorem flushOf_empty {P : TransformProxy} (h : P.operations = []) (cp : List Nat) :
    flushOf P cp = .ok P := by
  obtain ⟨T, pa, ops, n⟩ := P
  cases pa with
  | none => rfl
  | some q =>
    show (if cp ≠ q then TransformProxy.commit ⟨T, some q, ops, n⟩
        else Except.ok ⟨T, some q, ops, n⟩) = Except.ok ⟨T, some q, ops, n⟩
    by_cases hcp : cp ≠ q
    · rw [if_pos hcp]
      exact commit_empty h
    · rw [if_neg hcp]

theorem transform_of_flush_ok {P res : TransformProxy} {cp : List Nat} (op : EvOp)
    (hf : flushOf P cp = .ok res) :
    P.transform cp op
      = .ok ⟨res.current_object, some cp, res.operations ++ [op], res.nCommits⟩ := by
  rw [transform_eq, hf]

theorem transform_of_flush_error {P : TransformProxy} {cp : List Nat} {e : DiffError}
    (op : EvOp) (hf : flushOf P cp = .error e) : P.transform cp op = .error e := by
  rw [transform_eq, hf]

/-- One step of the simulation: a recorded op takes related proxies to the
same error or to related proxies. -/
theorem transform_rel {P Q : TransformProxy} (h : Rel P Q) (cp : List Nat) (op : EvOp) :
    (∃ e, P.transform cp op = .error e ∧ Q.transform cp op = .error e) ∨
    (∃ P1 Q1, P.transform cp op = .ok P1 ∧ Q.transform cp op = .ok Q1 ∧ Rel P1 Q1) := by
  obtain ⟨TP, paP, opsP, nP⟩ := P
  obtain ⟨TQ, paQ, opsQ, nQ⟩ := Q
  have hR := h
  unfold Rel at h
  simp only [] at h
  rcases h with ⟨hco, hops, hpq⟩ | ⟨p, ops, r, tgt, tgt1, T1, hpa, hops, hopsne,
    hres, hfold, hval, htr, hqco, hqops, hqpa⟩
  · cases hco
    cases hops
    rcases hpq with hpq | hopse
    · cases hpq
      cases paP with
      | none =>
        right
        exact ⟨⟨TP, some cp, opsP ++ [op], nP⟩, ⟨TP, some cp, opsP ++ [op], nQ⟩,
          transform_of_flush_ok op
            (show flushOf ⟨TP, none, opsP, nP⟩ cp = .ok ⟨TP, none, opsP, nP⟩ from rfl),
          transform_of_flush_ok op
            (show flushOf ⟨TP, none, opsP, nQ⟩ cp = .ok ⟨TP, none, opsP, nQ⟩ from rfl),
          Or.inl ⟨rfl, rfl, Or.inl rfl⟩⟩
      | some q =>
        by_cases hcp : cp = q
        · have hf : flushOf ⟨TP, some q, opsP, nP⟩ cp = .ok ⟨TP, some q, opsP, nP⟩ := by
            show (if cp ≠ q then TransformProxy.commit ⟨TP, some q, opsP, nP⟩
              else Except.ok ⟨TP, some q, opsP, nP⟩) = Except.ok ⟨TP, some q, opsP, nP⟩
            rw [if_neg (by simp [hcp])]
          have hf2 : flushOf ⟨TP, some q, opsP, nQ⟩ cp = .ok ⟨TP, some q, opsP, nQ⟩ := by
            show (if cp ≠ q then TransformProxy.commit ⟨TP, some q, opsP, nQ⟩
              else Except.ok ⟨TP, some q, opsP, nQ⟩) = Except.ok ⟨TP, some q, opsP, nQ⟩
            rw [if_neg (by simp [hcp])]
          right
          exact ⟨⟨TP, some cp, opsP ++ [op], nP⟩, ⟨TP, some cp, opsP ++ [op], nQ⟩,
            transform_of_flush_ok op hf, transform_of_flush_ok op hf2,
            Or.inl ⟨rfl, rfl, Or.inl rfl⟩⟩
        · have hf : flushOf ⟨TP, some q, opsP, nP⟩ cp
              = TransformProxy.commit ⟨TP, some q, opsP, nP⟩ := by
            show (if cp ≠ q then TransformProxy.commit ⟨TP, some q, opsP, nP⟩
                else Except.ok ⟨TP, some q, opsP, nP⟩)
              = TransformProxy.commit ⟨TP, some q, opsP, nP⟩
            rw [if_pos hcp]
          have hf2 : flushOf ⟨TP, some q, opsP, nQ⟩ cp
              = TransformProxy.commit ⟨TP, some q, opsP, nQ⟩ := by
            show (if cp ≠ q then TransformProxy.commit ⟨TP, some q, opsP, nQ⟩
                else Except.ok ⟨TP, some q, opsP, nQ⟩)
              = TransformProxy.commit ⟨TP, some q, opsP, nQ⟩
            rw [if_pos hcp]
          rcases commit_rel hR with ⟨e, hPc, hQc⟩ | ⟨P1, Q1, hPc, hQc, hco1, hop1, hoq1⟩
          · left
            exact ⟨e, transform_of_flush_error op (hf.trans hPc),
              transform_of_flush_error op (hf2.trans hQc)⟩
          · right
            refine ⟨⟨P1.current_object, some cp, P1.operations ++ [op], P1.nCommits⟩,
              ⟨Q1.current_object, some cp, Q1.operations ++ [op], Q1.nCommits⟩,
              transform_of_flush_ok op (hf.trans hPc),
              transform_of_flush_ok op (hf2.trans hQc),
              Or.inl ⟨hco1, by simp [hop1, hoq1], Or.inl rfl⟩⟩
    · cases hopse
      right
      exact ⟨⟨TP, some cp, [op], nP⟩, ⟨TP, some cp, [op], nQ⟩,
        transform_of_flush_ok op (flushOf_empty rfl cp),
        transform_of_flush_ok op (flushOf_empty rfl cp),
        Or.inl ⟨rfl, rfl, Or.inl rfl⟩⟩
  · cases hpa
    cases hops
    cases hqops
    rw [show T1 = TQ from hqco.symm] at htr
    by_cases hcp : cp = p
    · have hfP : flushOf ⟨TP, some p, ops ++ opsQ, nP⟩ cp
          = .ok ⟨TP, some p, ops ++ opsQ, nP⟩ := by
        show (if cp ≠ p then TransformProxy.commit ⟨TP, some p, ops ++ opsQ, nP⟩
            else Except.ok ⟨TP, some p, ops ++ opsQ, nP⟩)
          = Except.ok ⟨TP, some p, ops ++ opsQ, nP⟩
        rw [if_neg (by simp [hcp])]
      have hfQ : flushOf ⟨TQ, paQ, opsQ, nQ⟩ cp = .ok ⟨TQ, paQ, opsQ, nQ⟩ := by
        rcases hqpa with hq1 | ⟨hq0, hq2⟩
        · rw [hq1]
          show (if cp ≠ p then TransformProxy.commit ⟨TQ, some p, opsQ, nQ⟩
              else Except.ok ⟨TQ, some p, opsQ, nQ⟩) = Except.ok ⟨TQ, some p, opsQ, nQ⟩
          rw [if_neg (by simp [hcp])]
        · rw [hq2]
          rfl
      right
      refine ⟨⟨TP, some cp, (ops ++ opsQ) ++ [op], nP⟩, ⟨TQ, some cp, opsQ ++ [op], nQ⟩,
        transform_of_flush_ok op hfP, transform_of_flush_ok op hfQ, Or.inr
        ⟨p, ops, opsQ ++ [op], tgt, tgt1, TQ, by simp [hcp],
          by simp [List.append_assoc], hopsne, hres, hfold, hval, htr, rfl, rfl,
          Or.inl (by simp [hcp])⟩⟩
    · have hfP : flushOf ⟨TP, some p, ops ++ opsQ, nP⟩ cp
          = TransformProxy.commit ⟨TP, some p, ops ++ opsQ, nP⟩ := by
        show (if cp ≠ p then TransformProxy.commit ⟨TP, some p, ops ++ opsQ, nP⟩
            else Except.ok ⟨TP, some p, ops ++ opsQ, nP⟩)
          = TransformProxy.commit ⟨TP, some p, ops ++ opsQ, nP⟩
        rw [if_pos hcp]
      rcases hqpa with hq1 | ⟨hq0, hq2⟩
      · have hfQ : flushOf ⟨TQ, paQ, opsQ, nQ⟩ cp
            = TransformProxy.commit ⟨TQ, paQ, opsQ, nQ⟩ := by
          rw [hq1]
          show (if cp ≠ p then TransformProxy.commit ⟨TQ, some p, opsQ, nQ⟩
              else Except.ok ⟨TQ, some p, opsQ, nQ⟩)
            = TransformProxy.commit ⟨TQ, some p, opsQ, nQ⟩
          rw [if_pos hcp]
        rcases commit_rel hR with ⟨e, hPc, hQc⟩ | ⟨P1, Q1, hPc, hQc, hco1, hop1, hoq1⟩
        · left
          exact ⟨e, transform_of_flush_error op (hfP.trans hPc),
            transform_of_flush_error op (hfQ.trans hQc)⟩
        · right
          refine ⟨⟨P1.current_object, some cp, P1.operations ++ [op], P1.nCommits⟩,
            ⟨Q1.current_object, some cp, Q1.operations ++ [op], Q1.nCommits⟩,
            transform_of_flush_ok op (hfP.trans hPc),
            transform_of_flush_ok op (hfQ.trans hQc),
            Or.inl ⟨hco1, by simp [hop1, hoq1], Or.inl rfl⟩⟩
      · cases hq0
        have hcoreP : commitCore TP (some p) (ops ++ []) = .ok TQ := by
          rw [commitCore_merge hopsne hres hfold hval htr none (Or.inr ⟨rfl, rfl⟩)]
          rfl
        rcases commit_spec TP (some p) (ops ++ []) nP with ⟨e, hc, hPc⟩ | ⟨T2, n2, hc, hPc⟩
        · rw [hcoreP] at hc
          cases hc
        · rw [hcoreP] at hc
          obtain rfl := Except.ok.inj hc
          rw [hq2]
          right
          exact ⟨⟨TQ, some cp, [op], n2⟩, ⟨TQ, some cp, [op], nQ⟩,
            transform_of_flush_ok op (hfP.trans hPc),
            transform_of_flush_ok op (flushOf_empty rfl cp),
            Or.inl ⟨rfl, rfl, Or.inl rfl⟩⟩

/-- The tail of an apply run from an arbitrary proxy state: process the
remaining changes, commit the final batch, and project the object. -/
def finishRun (cs : List ChangeOp) (pr : TransformProxy) : Except DiffError Tree :=
  match Diff.applyChanges cs pr with
  | .error e => .error e
  | .ok pr1 =>
    match pr1.commit with
    | .error e => .error e
    | .ok pr2 => .ok pr2.current_object

theorem Diff.apply_eq_finishRun (d : Diff) (t : Tree) :
    Diff.apply d t = finishRun d.changes (TransformProxy.init t) := rfl

theorem finishRun_append (cs1 cs2 : List ChangeOp) (pr : TransformProxy) :
    finishRun (cs1 ++ cs2) pr = match Diff.applyChanges cs1 pr with
      | .error e => .error e
      | .ok pr1 => finishRun cs2 pr1 := by
  unfold finishRun
  rw [Diff.applyChanges_append]
  cases Diff.applyChanges cs1 pr <;> rfl

/-- Related proxies finish any remaining run with the same result. -/
theorem finishRun_rel : ∀ (cs : List ChangeOp) (P Q : TransformProxy), Rel P Q →
    finishRun cs P = finishRun cs Q
  | [], P, Q, h => by
    unfold finishRun
    simp only [Diff.applyChanges]
    rcases commit_rel h with ⟨e, hP, hQ⟩ | ⟨P1, Q1, hP, hQ, hco, -, -⟩
    · rw [hP, hQ]
    · rw [hP, hQ]
      simp only []
      rw [hco]
  | c :: cs, P, Q, h => by
    by_cases hlen : 0 < c.path.length
    · rcases transform_rel h c.containerPath c.evOp with ⟨e, hP, hQ⟩ | ⟨P1, Q1, hP, hQ, hrel⟩
      · unfold finishRun
        simp only [Diff.applyChanges, if_pos hlen]
        rw [show c.apply P = .error e from hP, show c.apply Q = .error e from hQ]
      · unfold finishRun
        simp only [Diff.applyChanges, if_pos hlen]
        rw [show c.apply P = .ok P1 from hP, show c.apply Q = .ok Q1 from hQ]
        exact finishRun_rel cs P1 Q1 hrel
    · cases c with
      | set q v =>
        obtain rfl : q = [] := by
          refine List.eq_nil_of_length_eq_zero ?_
          simp only [ChangeOp.path] at hlen
          omega
        rfl
      | remove q i =>
        obtain rfl : q = [] := by
          refine List.eq_nil_of_length_eq_zero ?_
          simp only [ChangeOp.path] at hlen
          omega
        rfl
      | add q i =>
        obtain rfl : q = [] := by
          refine List.eq_nil_of_length_eq_zero ?_
          simp only [ChangeOp.path] at hlen
          omega
        rfl

/-- C3: `compose_diffs` concatenates the constituent diffs' ops in input
order (no de-duplication, no reordering), and applying the composed diff is
sequential application: whenever `apply d1 t` and `apply d2 (apply d1 t)`
are defined, the composed diff applied to `t` gives the same final tree. -/
theorem claim_C3 :
    (∀ ds : List Diff, (compose_diffs ds).changes = (ds.map Diff.changes).flatten) ∧
    (∀ (d1 d2 : Diff) (t u v : Tree),
      Diff.apply d1 t = .ok u → Diff.apply d2 u = .ok v →
      Diff.apply (compose_diffs [d1, d2]) t = .ok v) := by
  refine ⟨fun ds => rfl, ?_⟩
  intro d1 d2 t u v h1 h2
  have hch : (compose_diffs [d1, d2]).changes = d1.changes ++ d2.changes := by
    show ([d1, d2].map Diff.changes).flatten = d1.changes ++ d2.changes
    simp
  rw [Diff.apply_eq_finishRun] at h1 h2 ⊢
  rw [hch, finishRun_append]
  unfold finishRun at h1
  split at h1
  · cases h1
  · rename_i p1 happ1
    split at h1
    · cases h1
    · rename_i p1' hcm
      obtain rfl := Except.ok.inj h1
      have hrel : Rel p1 (TransformProxy.init p1'.current_object) := by
        by_cases hops : p1.operations = []
        · obtain rfl : p1' = p1 := (Except.ok.inj ((commit_empty hops).symm.trans hcm)).symm
          exact Or.inl ⟨rfl, by rw [hops]; rfl, Or.inr hops⟩
        · obtain ⟨T1, pa1, ops1, n1⟩ := p1
          rcases commit_spec T1 pa1 ops1 n1 with ⟨e, hc, hP⟩ | ⟨T2, n2, hc, hP⟩
          · rw [hP] at hcm
            cases hcm
          · rw [hP] at hcm
            obtain rfl := Except.ok.inj hcm
            obtain ⟨p, tgt, tgt1, hpa, hres, hfold, hval, htr⟩ :=
              commitCore_ok_destruct (by simpa using hops) hc
            exact Or.inr ⟨p, ops1, [], tgt, tgt1, T2, hpa, (List.append_nil ops1).symm,
              by simpa using hops, hres, hfold, hval, htr, rfl, rfl, Or.inr ⟨rfl, rfl⟩⟩
      rw [finishRun_rel d2.changes p1 (TransformProxy.init p1'.current_object) hrel]
      exact h2

/-- Witness for C3's sequential-application clause at concrete diffs. -/
theorem claim_C3_witness :
    Diff.apply (compose_diffs [Diff.mk [ChangeOp.set [0] (Tree.scalar 1)],
        Diff.mk [ChangeOp.set [1] (Tree.scalar 2)]]) (Tree.pmap Fields.nil)
      = .ok (Tree.pmap (Fields.cons 0 (Tree.scalar 1)
          (Fields.cons 1 (Tree.scalar 2) Fields.nil))) :=
  claim_C3.2 (Diff.mk [ChangeOp.set [0] (Tree.scalar 1)])
    (Diff.mk [ChangeOp.set [1] (Tree.scalar 2)]) (Tree.pmap Fields.nil)
    (Tree.pmap (Fields.cons 0 (Tree.scalar 1) Fields.nil))
    (Tree.pmap (Fields.cons 0 (Tree.scalar 1) (Fields.cons 1 (Tree.scalar 2) Fields.nil)))
    rfl rfl

end Flocker
